import Mathlib

/-!
Verification of the window-operator core of `velox/exec/Window.cpp`.

The development shallowly embeds the operator's frame machinery:
* plan-setup frame construction (`Window::createWindowFrame`),
* frame-bound resolution (`Window::updateFrameBounds`,
  `Window::updateKRowsFrameBounds`, `updateKRowsOffsetsColumn`),
* validity repair (`computeValidFrames`),
* and the output batching driver (`Window::callResetPartition`,
  `Window::callApplyForPartitionRows`, `Window::callApplyLoop`,
  `Window::getOutput`).

C++ `vector_size_t` is `int32_t`; values are modelled as unbounded `Int`
with the two's-complement narrowing made explicit (`toInt32`) exactly at
the points where the C++ performs an `int64 -> int32` conversion or where
a 32-bit store/overflow occurs.
-/

namespace VeloxWindow

/-- Two's-complement narrowing of an integer to signed 32 bits, the effect of
converting to / storing into C++ `vector_size_t` (`int32_t`). -/
def toInt32 (x : ℤ) : ℤ := (x + 2 ^ 31) % 2 ^ 32 - 2 ^ 31

/-- `core::WindowNode::WindowType`. -/
inductive WindowType
  | kRange
  | kRows
deriving DecidableEq

/-- `core::WindowNode::BoundType`. -/
inductive BoundType
  | kUnboundedPreceding
  | kPreceding
  | kCurrentRow
  | kFollowing
  | kUnboundedFollowing
deriving DecidableEq

/-- The value types relevant to frame-bound expressions (`frame->type()`). -/
inductive ValType
  | integer
  | bigint
  | other
deriving DecidableEq

/-- A frame bound expression (`core::TypedExprPtr` used as `startValue` /
`endValue`): either a constant literal (possibly null) or a reference to an
input column channel. -/
inductive FrameExpr
  | constant (val : Option ℤ) (typ : ValType)
  | column (channel : ℕ) (typ : ValType)
deriving DecidableEq

/-- The type of a frame expression. -/
def FrameExpr.typ : FrameExpr → ValType
  | .constant _ t => t
  | .column _ t => t

/-- `core::WindowNode::Frame`. -/
structure Frame where
  type : WindowType
  startType : BoundType
  endType : BoundType
  startValue : Option FrameExpr
  endValue : Option FrameExpr
deriving DecidableEq

/-- Structured rendering of the error conditions raised by the window
operator (`VELOX_USER_CHECK*`, `VELOX_CHECK`, `VELOX_NYI`,
`VELOX_USER_FAIL`). -/
inductive WinError
  | boundNotIntegral
  | nullOffset
  | negativeOffset (v : ℤ)
  | nyiKRangeFrame
  | missingFrameArg
deriving DecidableEq

/-- `Window::WindowFrame::FrameChannelArg`, after the constant / column split
performed at construction (`frameChannel == kConstantChannel` or not). -/
inductive FrameChannelArg
  | constant (value : ℤ)
  | column (channel : ℕ)
deriving DecidableEq

/-- `Window::WindowFrame`. -/
structure WindowFrame where
  type : WindowType
  startType : BoundType
  endType : BoundType
  start : Option FrameChannelArg
  «end» : Option FrameChannelArg
deriving DecidableEq

/-- The `frameBoundCheck` lambda in `Window::createWindowFrame`: a non-null
k-bound expression must have INTEGER or BIGINT type. -/
def frameBoundCheck : Option FrameExpr → Except WinError Unit
  | none => .ok ()
  | some e =>
      if e.typ = ValType.integer ∨ e.typ = ValType.bigint then .ok ()
      else .error .boundNotIntegral

/-- The `createFrameChannelArg` lambda in `Window::createWindowFrame`:
constants must be non-null and non-negative; columns become channel args. -/
def createFrameChannelArg : Option FrameExpr → Except WinError (Option FrameChannelArg)
  | none => .ok none
  | some (.constant v _) =>
      match v with
      | none => .error .nullOffset
      | some value =>
          if value < 0 then .error (.negativeOffset value)
          else .ok (some (.constant value))
  | some (.column ch _) => .ok (some (.column ch))

/-- `Window::createWindowFrame` (plan-setup construction of a WindowFrame).
Note the integral-type check runs only for ROWS frames, and no check at all
rejects RANGE combined with K PRECEDING / K FOLLOWING here. -/
def createWindowFrame (frame : Frame) : Except WinError WindowFrame := do
  if frame.type = WindowType.kRows then
    frameBoundCheck frame.startValue
    frameBoundCheck frame.endValue
  let s ← createFrameChannelArg frame.startValue
  let e ← createFrameChannelArg frame.endValue
  .ok ⟨frame.type, frame.startType, frame.endType, s, e⟩

/-- A partition as consumed by the operator: a row count together with the
column data (`extractColumn` source). Cell values are `Option ℤ` (null or an
integer). -/
structure Partition where
  numRows : ℕ
  columns : ℕ → List (Option ℤ)

/-- `WindowPartition::extractColumn` restricted to what the frame logic
consumes: the slice `[partitionOffset, partitionOffset + numRows)` of one
column. -/
def Partition.extractColumn (p : Partition) (channel partitionOffset numRows : ℕ) :
    List (Option ℤ) :=
  ((p.columns channel).drop partitionOffset).take numRows

/-- The first (validation) loop of `updateKRowsOffsetsColumn`: every offset in
the slice must be non-null and non-negative, checked row by row in order,
before any frame bound is written. -/
def validateOffsets : List (Option ℤ) → Except WinError Unit
  | [] => .ok ()
  | none :: _ => .error .nullOffset
  | some v :: rest =>
      if v < 0 then .error (.negativeOffset v)
      else validateOffsets rest

/-- One write of the second loop of `updateKRowsOffsetsColumn`:
`rawFrameBounds[i] = (startRow + i) + vector_size_t(precedingFactor * offsets[i])`.
The inner `toInt32` is the explicit `vector_size_t(...)` narrowing of the
signed product; the outer one is the 32-bit addition/store. -/
def kRowsBound (isKPreceding : Bool) (startRow : ℤ) (i : ℕ) (v : ℤ) : ℤ :=
  toInt32 (startRow + i + toInt32 (if isKPreceding then -v else v))

/-- `updateKRowsOffsetsColumn` (anonymous namespace of Window.cpp): validate
the whole slice, then fill the bounds. An error aborts before any bound of
the slice is produced. -/
def updateKRowsOffsetsColumn (isKPreceding : Bool) (values : List (Option ℤ))
    (startRow : ℤ) : Except WinError (List ℤ) := do
  validateOffsets values
  .ok (values.enum.map fun iv => kRowsBound isKPreceding startRow iv.1 (iv.2.getD 0))

/-- `Window::updateKRowsFrameBounds`. The constant path seeds
`startValue = startRow ± constantOffset` (64-bit) and fills by `std::iota`,
each store narrowing to `vector_size_t`; the column path extracts the offset
column slice and delegates to `updateKRowsOffsetsColumn`. -/
def updateKRowsFrameBounds (isKPreceding : Bool) (frameArg : FrameChannelArg)
    (startRow : ℤ) (numRows : ℕ) (part : Partition) (partitionOffset : ℕ) :
    Except WinError (List ℤ) :=
  match frameArg with
  | .constant constantOffset =>
      let startValue := startRow + (if isKPreceding then -constantOffset else constantOffset)
      .ok ((List.range numRows).map fun i : ℕ => toInt32 (startValue + i))
  | .column ch =>
      updateKRowsOffsetsColumn isKPreceding
        (part.extractColumn ch partitionOffset numRows) startRow

/-- `Window::updateFrameBounds`: fill one frame-bound buffer (start side if
`isStartBound`) for the slice `[startRow, startRow + numRows)`. The peer
buffers are those already computed for the slice. -/
def updateFrameBounds (wf : WindowFrame) (isStartBound : Bool) (startRow : ℤ)
    (numRows : ℕ) (rawPeerStarts rawPeerEnds : List ℤ)
    (part : Partition) (partitionOffset : ℕ) : Except WinError (List ℤ) :=
  let boundType := if isStartBound then wf.startType else wf.endType
  let frameArg := if isStartBound then wf.start else wf.end
  match boundType with
  | .kUnboundedPreceding => .ok (List.replicate numRows 0)
  | .kUnboundedFollowing => .ok (List.replicate numRows ((part.numRows : ℤ) - 1))
  | .kCurrentRow =>
      if wf.type = WindowType.kRange then
        let rawPeerBuffer := if isStartBound then rawPeerStarts else rawPeerEnds
        .ok (rawPeerBuffer.take numRows)
      else
        .ok ((List.range numRows).map fun i : ℕ => startRow + i)
  | .kPreceding =>
      if wf.type = WindowType.kRows then
        match frameArg with
        | some arg => updateKRowsFrameBounds true arg startRow numRows part partitionOffset
        | none => .error .missingFrameArg
      else .error .nyiKRangeFrame
  | .kFollowing =>
      if wf.type = WindowType.kRows then
        match frameArg with
        | some arg => updateKRowsFrameBounds false arg startRow numRows part partitionOffset
        | none => .error .missingFrameArg
  else .error .nyiKRangeFrame

/-- `computeValidFrames` (anonymous namespace of Window.cpp): walk the three
parallel buffers; a valid row is clamped in place, an invalid row has its
validity bit cleared and its raw bounds left untouched. -/
def computeValidFrames (lastRow : ℤ) :
    List ℤ → List ℤ → List Bool → List ℤ × List ℤ × List Bool
  | fs :: ss, fe :: es, v :: vs =>
      let rest := computeValidFrames lastRow ss es vs
      if fs ≤ fe ∧ 0 ≤ fe ∧ fs ≤ lastRow then
        (max fs 0 :: rest.1, min fe lastRow :: rest.2.1, v :: rest.2.2)
      else
        (fs :: rest.1, fe :: rest.2.1, false :: rest.2.2)
  | ss, es, vs => (ss, es, vs)

/-- The per-function body of `Window::computePeerAndFrameBuffers`: reset the
validity selector to all-true (`resizeFill(numRows, true)`), resolve both
frame sides, and run validity repair only when the frame has a k-offset
argument on at least one side. -/
def computeFrameBuffersForFunction (wf : WindowFrame) (startRow : ℤ) (numRows : ℕ)
    (rawPeerStarts rawPeerEnds : List ℤ) (part : Partition) (partitionOffset : ℕ) :
    Except WinError (List ℤ × List ℤ × List Bool) := do
  let valid0 := List.replicate numRows true
  let fs ← updateFrameBounds wf true startRow numRows rawPeerStarts rawPeerEnds part partitionOffset
  let fe ← updateFrameBounds wf false startRow numRows rawPeerStarts rawPeerEnds part partitionOffset
  if wf.start.isSome ∨ wf.end.isSome then
    .ok (computeValidFrames ((part.numRows : ℤ) - 1) fs fe valid0)
  else
    .ok (fs, fe, valid0)



/-! ### Arithmetic facts about the 32-bit narrowing -/

theorem toInt32_lb (x : ℤ) : -(2 ^ 31) ≤ toInt32 x := by
  unfold toInt32; omega

theorem toInt32_ub (x : ℤ) : toInt32 x < 2 ^ 31 := by
  unfold toInt32; omega

theorem toInt32_eq_self {x : ℤ} (h1 : -(2 ^ 31) ≤ x) (h2 : x < 2 ^ 31) :
    toInt32 x = x := by
  unfold toInt32; omega

theorem toInt32_add_toInt32 (a b : ℤ) : toInt32 (a + toInt32 b) = toInt32 (a + b) := by
  unfold toInt32; omega

/-! ### Validity repair (`computeValidFrames`) -/

theorem computeValidFrames_nil (lastRow : ℤ) (es : List ℤ) (vs : List Bool) :
    computeValidFrames lastRow [] es vs = ([], es, vs) := by
  unfold computeValidFrames; rfl

theorem computeValidFrames_cons (lastRow fs fe : ℤ) (v : Bool)
    (ss es : List ℤ) (vs : List Bool) :
    computeValidFrames lastRow (fs :: ss) (fe :: es) (v :: vs) =
      (let rest := computeValidFrames lastRow ss es vs
       if fs ≤ fe ∧ 0 ≤ fe ∧ fs ≤ lastRow then
         (max fs 0 :: rest.1, min fe lastRow :: rest.2.1, v :: rest.2.2)
       else
         (fs :: rest.1, fe :: rest.2.1, false :: rest.2.2)) := by
  rw [computeValidFrames]

/-- Elementwise characterization of `computeValidFrames`. -/
theorem computeValidFrames_get (lastRow : ℤ) :
    ∀ (ss es : List ℤ) (vs : List Bool) (i : ℕ) (fs fe : ℤ) (v : Bool),
      ss.get? i = some fs → es.get? i = some fe → vs.get? i = some v →
      (fs ≤ fe ∧ 0 ≤ fe ∧ fs ≤ lastRow →
        (computeValidFrames lastRow ss es vs).1.get? i = some (max fs 0) ∧
        (computeValidFrames lastRow ss es vs).2.1.get? i = some (min fe lastRow) ∧
        (computeValidFrames lastRow ss es vs).2.2.get? i = some v) ∧
      (¬(fs ≤ fe ∧ 0 ≤ fe ∧ fs ≤ lastRow) →
        (computeValidFrames lastRow ss es vs).1.get? i = some fs ∧
        (computeValidFrames lastRow ss es vs).2.1.get? i = some fe ∧
        (computeValidFrames lastRow ss es vs).2.2.get? i = some false) := by
  intro ss
  induction ss with
  | nil => intro es vs i fs fe v h1 _ _; simp [List.get?] at h1
  | cons a as ih =>
      intro es vs i fs fe v h1 h2 h3
      match es, vs with
      | [], _ => simp [List.get?] at h2
      | _ :: _, [] => simp [List.get?] at h3
      | b :: bs, c :: cs =>
          match i with
          | 0 =>
              simp only [List.get?, Option.some.injEq] at h1 h2 h3
              subst h1; subst h2; subst h3
              rw [computeValidFrames_cons]
              constructor
              · intro hcond; simp [hcond, List.get?]
              · intro hcond; simp [hcond, List.get?]
          | Nat.succ j =>
              simp only [List.get?] at h1 h2 h3
              have hrec := ih bs cs j fs fe v h1 h2 h3
              rw [computeValidFrames_cons]
              by_cases hc : a ≤ b ∧ 0 ≤ b ∧ a ≤ lastRow
              · simpa [hc, List.get?] using hrec
              · simpa [hc, List.get?] using hrec

/-! ### Concrete fixtures for witnesses and counterexamples -/

/-- A small concrete 4-row partition used by concrete witnesses. -/
def samplePartition : Partition := ⟨4, fun _ => List.replicate 4 (some 1)⟩

/-- A RANGE-mode frame with a K PRECEDING start bound, as produced by plan
construction. -/
def rangeKFrame : Frame :=
  ⟨WindowType.kRange, BoundType.kPreceding, BoundType.kCurrentRow,
    some (.constant (some 5) .integer), none⟩

/-! ### C3: validity repair -/

/-- C3: after both frame sides are resolved for a function, validity repair
marks row `i` valid iff `frameStart <= frameEnd` and `frameEnd >= 0` and
`frameStart <= lastRow`; every valid row is clamped to
`max(frameStart, 0)` / `min(frameEnd, lastRow)`; every invalid row has its
validity-selector bit cleared and its raw (possibly out-of-range) bound
values left unmodified. -/
theorem computeValidFrames_validity_and_clamping (lastRow : ℤ) (ss es : List ℤ)
    (n i : ℕ) (hs : ss.length = n) (he : es.length = n) (fs fe : ℤ)
    (hfs : ss.get? i = some fs) (hfe : es.get? i = some fe) :
    ((computeValidFrames lastRow ss es (List.replicate n true)).2.2.get? i = some true ↔
      fs ≤ fe ∧ 0 ≤ fe ∧ fs ≤ lastRow) ∧
    (fs ≤ fe ∧ 0 ≤ fe ∧ fs ≤ lastRow →
      (computeValidFrames lastRow ss es (List.replicate n true)).1.get? i = some (max fs 0) ∧
      (computeValidFrames lastRow ss es (List.replicate n true)).2.1.get? i = some (min fe lastRow)) ∧
    (¬(fs ≤ fe ∧ 0 ≤ fe ∧ fs ≤ lastRow) →
      (computeValidFrames lastRow ss es (List.replicate n true)).2.2.get? i = some false ∧
      (computeValidFrames lastRow ss es (List.replicate n true)).1.get? i = some fs ∧
      (computeValidFrames lastRow ss es (List.replicate n true)).2.1.get? i = some fe) := by
  have hi : i < n := by
    have h := (List.get?_eq_some.mp hfs).1
    omega
  have hv : (List.replicate n true).get? i = some true := by
    simp [List.getElem?_replicate, List.get?_eq_getElem?, hi]
  have hmain := computeValidFrames_get lastRow ss es (List.replicate n true) i fs fe true hfs hfe hv
  refine ⟨?_, fun hc => ⟨(hmain.1 hc).1, (hmain.1 hc).2.1⟩,
    fun hc => ⟨(hmain.2 hc).2.2, (hmain.2 hc).1, (hmain.2 hc).2.1⟩⟩
  constructor
  · intro hval
    by_contra hc
    have hfalse := (hmain.2 hc).2.2
    rw [hval] at hfalse
    simp at hfalse
  · intro hc
    exact (hmain.1 hc).2.2

/-- Witness for C3 at the spec's concrete example: rows `[0,1,2,4]`/`[3,4,5,3]`
with `lastRow = 3`; row 3 has `frameStart = 4 > frameEnd = 3` and is flagged
invalid with raw bounds kept. -/
theorem computeValidFrames_validity_and_clamping_witness :
    ((computeValidFrames 3 [0, 1, 2, 4] [3, 4, 5, 3] (List.replicate 4 true)).2.2.get? 3 = some true ↔
      (4 : ℤ) ≤ 3 ∧ (0 : ℤ) ≤ 3 ∧ (4 : ℤ) ≤ 3) ∧
    ((4 : ℤ) ≤ 3 ∧ (0 : ℤ) ≤ 3 ∧ (4 : ℤ) ≤ 3 →
      (computeValidFrames 3 [0, 1, 2, 4] [3, 4, 5, 3] (List.replicate 4 true)).1.get? 3 = some (max 4 0) ∧
      (computeValidFrames 3 [0, 1, 2, 4] [3, 4, 5, 3] (List.replicate 4 true)).2.1.get? 3 = some (min 3 3)) ∧
    (¬((4 : ℤ) ≤ 3 ∧ (0 : ℤ) ≤ 3 ∧ (4 : ℤ) ≤ 3) →
      (computeValidFrames 3 [0, 1, 2, 4] [3, 4, 5, 3] (List.replicate 4 true)).2.2.get? 3 = some false ∧
      (computeValidFrames 3 [0, 1, 2, 4] [3, 4, 5, 3] (List.replicate 4 true)).1.get? 3 = some 4 ∧
      (computeValidFrames 3 [0, 1, 2, 4] [3, 4, 5, 3] (List.replicate 4 true)).2.1.get? 3 = some 3) :=
  computeValidFrames_validity_and_clamping 3 [0, 1, 2, 4] [3, 4, 5, 3] 4 3 rfl rfl 4 3 rfl rfl

/-! ### C5: basic frame bounds -/

/-- C5: for every output slice and frame side, UNBOUNDED PRECEDING fills the
bound buffer with 0, UNBOUNDED FOLLOWING with the partition row count minus
one, and CURRENT ROW copies the corresponding peer boundary under RANGE mode
(peer starts for the start side, peer ends for the end side) and each row's
own absolute index `startRow + i` under ROWS mode. -/
theorem updateFrameBounds_unbounded_and_current_row (wf : WindowFrame)
    (isStartBound : Bool) (startRow : ℤ) (numRows : ℕ) (peerS peerE : List ℤ)
    (part : Partition) (po : ℕ)
    (hS : peerS.length = numRows) (hE : peerE.length = numRows) :
    ((if isStartBound then wf.startType else wf.endType) = BoundType.kUnboundedPreceding →
      updateFrameBounds wf isStartBound startRow numRows peerS peerE part po =
        .ok (List.replicate numRows (0 : ℤ))) ∧
    ((if isStartBound then wf.startType else wf.endType) = BoundType.kUnboundedFollowing →
      updateFrameBounds wf isStartBound startRow numRows peerS peerE part po =
        .ok (List.replicate numRows ((part.numRows : ℤ) - 1))) ∧
    ((if isStartBound then wf.startType else wf.endType) = BoundType.kCurrentRow →
      wf.type = WindowType.kRange →
      updateFrameBounds wf isStartBound startRow numRows peerS peerE part po =
        .ok (if isStartBound then peerS else peerE)) ∧
    ((if isStartBound then wf.startType else wf.endType) = BoundType.kCurrentRow →
      wf.type = WindowType.kRows →
      updateFrameBounds wf isStartBound startRow numRows peerS peerE part po =
        .ok ((List.range numRows).map fun i : ℕ => startRow + i)) := by
  refine ⟨?_, ?_, ?_, ?_⟩
  · intro h; unfold updateFrameBounds; rw [h]
  · intro h; unfold updateFrameBounds; rw [h]
  · intro h ht; unfold updateFrameBounds; rw [h]
    simp only [ht, if_pos rfl]
    cases isStartBound
    · simp [← hE, List.take_length]
    · simp [← hS, List.take_length]
  · intro h ht; unfold updateFrameBounds; rw [h]
    simp [ht]

/-- Witness for C5: a ROWS frame `UNBOUNDED PRECEDING .. CURRENT ROW` on the
4-row sample partition: the start side fills with 0, the end side with the
row's own index. -/
theorem updateFrameBounds_unbounded_and_current_row_witness :
    updateFrameBounds
        ⟨WindowType.kRows, BoundType.kUnboundedPreceding, BoundType.kCurrentRow, none, none⟩
        false 0 4 [0, 0, 1, 1] [1, 1, 3, 3] samplePartition 0 =
      .ok ((List.range 4).map fun i : ℕ => (0 : ℤ) + i) :=
  (updateFrameBounds_unbounded_and_current_row
      ⟨WindowType.kRows, BoundType.kUnboundedPreceding, BoundType.kCurrentRow, none, none⟩
      false 0 4 [0, 0, 1, 1] [1, 1, 3, 3] samplePartition 0 rfl rfl).2.2.2 rfl rfl

/-! ### C9: validity repair skipped without K offsets -/

/-- C9: when neither bound side of a function's frame carries a K-offset
argument, the per-function buffer computation skips validity repair entirely
and hands back the raw resolved bounds with every row of the slice marked
valid. -/
theorem validity_repair_skipped_without_k_offsets (wf : WindowFrame)
    (startRow : ℤ) (numRows : ℕ) (peerS peerE : List ℤ) (part : Partition) (po : ℕ)
    (hs : wf.start = none) (he : wf.end = none)
    (fs fe : List ℤ)
    (hfs : updateFrameBounds wf true startRow numRows peerS peerE part po = .ok fs)
    (hfe : updateFrameBounds wf false startRow numRows peerS peerE part po = .ok fe) :
    computeFrameBuffersForFunction wf startRow numRows peerS peerE part po =
      .ok (fs, fe, List.replicate numRows true) := by
  unfold computeFrameBuffersForFunction
  rw [hfs, hfe]
  simp only [hs, he, Option.isSome_none, Bool.false_eq_true, or_self, if_false]
  rfl

/-- Witness for C9: the frame `ROWS UNBOUNDED PRECEDING .. CURRENT ROW` (no K
offsets) on the sample partition keeps its raw bounds and an all-true
validity selector. -/
theorem validity_repair_skipped_without_k_offsets_witness :
    computeFrameBuffersForFunction
        ⟨WindowType.kRows, BoundType.kUnboundedPreceding, BoundType.kCurrentRow, none, none⟩
        0 4 [0, 0, 1, 1] [1, 1, 3, 3] samplePartition 0 =
      .ok (List.replicate 4 (0 : ℤ), (List.range 4).map (fun i : ℕ => (0 : ℤ) + i),
        List.replicate 4 true) :=
  validity_repair_skipped_without_k_offsets
    ⟨WindowType.kRows, BoundType.kUnboundedPreceding, BoundType.kCurrentRow, none, none⟩
    0 4 [0, 0, 1, 1] [1, 1, 3, 3] samplePartition 0 rfl rfl
    (List.replicate 4 (0 : ℤ)) ((List.range 4).map (fun i : ℕ => (0 : ℤ) + i)) rfl rfl

/-! ### C1: RANGE + K bound rejection point -/

/-- Any constant argument of the bound expression, when present, is non-null
and non-negative (the well-formedness createWindowFrame itself enforces). -/
def constArgsOk (o : Option FrameExpr) : Prop :=
  ∀ v t, o = some (.constant v t) → ∃ w, v = some w ∧ 0 ≤ w

theorem createFrameChannelArg_ok (o : Option FrameExpr) (h : constArgsOk o) :
    ∃ a, createFrameChannelArg o = .ok a := by
  match o with
  | none => exact ⟨none, rfl⟩
  | some (.constant v t) =>
      obtain ⟨w, rfl, hw⟩ := h v t rfl
      exact ⟨some (.constant w), by simp [createFrameChannelArg, not_lt.mpr hw]⟩
  | some (.column ch t) => exact ⟨some (.column ch), rfl⟩

/-- Counterexample to C1: `createWindowFrame` accepts a RANGE frame with a
K PRECEDING bound at plan setup without error; the rejection only happens
later, when `updateFrameBounds` evaluates the bound (as a not-implemented
error). -/
theorem createWindowFrame_accepts_range_k_frame :
    createWindowFrame rangeKFrame =
      .ok ⟨WindowType.kRange, BoundType.kPreceding, BoundType.kCurrentRow,
            some (.constant 5), none⟩ ∧
    updateFrameBounds
        ⟨WindowType.kRange, BoundType.kPreceding, BoundType.kCurrentRow,
          some (.constant 5), none⟩ true 0 4
        (List.replicate 4 0) (List.replicate 4 0) samplePartition 0 =
      Except.error WinError.nyiKRangeFrame :=
  ⟨rfl, rfl⟩

/-- C1 (amended): a RANGE-mode frame whose start or end bound is K PRECEDING
or K FOLLOWING passes window-frame construction at plan setup (provided its
constant offsets are the non-null, non-negative values construction checks
for), and is rejected only during frame-bound resolution, where
`updateFrameBounds` raises the not-implemented error for that side. -/
theorem range_k_frame_fails_at_updateFrameBounds (f : Frame)
    (hr : f.type = WindowType.kRange)
    (hCS : constArgsOk f.startValue) (hCE : constArgsOk f.endValue)
    (isStartBound : Bool)
    (hk : (if isStartBound then f.startType else f.endType) = BoundType.kPreceding ∨
          (if isStartBound then f.startType else f.endType) = BoundType.kFollowing)
    (startRow : ℤ) (numRows : ℕ) (peerS peerE : List ℤ) (part : Partition) (po : ℕ) :
    ∃ wf, createWindowFrame f = .ok wf ∧
      updateFrameBounds wf isStartBound startRow numRows peerS peerE part po =
        Except.error WinError.nyiKRangeFrame := by
  obtain ⟨sA, hsA⟩ := createFrameChannelArg_ok f.startValue hCS
  obtain ⟨eA, heA⟩ := createFrameChannelArg_ok f.endValue hCE
  refine ⟨⟨f.type, f.startType, f.endType, sA, eA⟩, ?_, ?_⟩
  · simp only [createWindowFrame, hr, hsA, heA]
    rfl
  · unfold updateFrameBounds
    rcases hk with h | h <;> cases isStartBound <;>
      simp only [if_true, if_false, Bool.false_eq_true] at h ⊢ <;> rw [h] <;> simp [hr]

/-- Witness for C1 (amended) at the concrete RANGE / K PRECEDING frame. -/
theorem range_k_frame_fails_at_updateFrameBounds_witness :
    ∃ wf, createWindowFrame rangeKFrame = .ok wf ∧
      updateFrameBounds wf true 0 4 (List.replicate 4 0) (List.replicate 4 0)
          samplePartition 0 =
        Except.error WinError.nyiKRangeFrame :=
  range_k_frame_fails_at_updateFrameBounds rangeKFrame rfl
    (fun v t h => by
      injection h with h
      injection h with h1 h2
      exact ⟨5, by rw [← h1], by decide⟩)
    (fun v t h => by exact absurd h (by simp [rangeKFrame]))
    true (Or.inl rfl) 0 4 (List.replicate 4 0) (List.replicate 4 0) samplePartition 0

/-! ### C4, C6, C10: K-offset resolution -/

theorem validateOffsets_ok (values : List (Option ℤ))
    (h : ∀ ov ∈ values, ∃ w, ov = some w ∧ 0 ≤ w) :
    validateOffsets values = .ok () := by
  induction values with
  | nil => rfl
  | cons a rest ih =>
      obtain ⟨w, rfl, hw⟩ := h a (List.mem_cons_self a rest)
      unfold validateOffsets
      rw [if_neg (not_lt.mpr hw)]
      exact ih fun ov hov => h ov (List.mem_cons_of_mem _ hov)

theorem validateOffsets_err (values : List (Option ℤ))
    (h : ∃ ov ∈ values, ov = none ∨ ∃ v, ov = some v ∧ v < 0) :
    ∃ e, validateOffsets values = .error e ∧
      (e = .nullOffset ∨ ∃ v, e = .negativeOffset v ∧ v < 0 ∧ some v ∈ values) := by
  induction values with
  | nil => obtain ⟨ov, hov, _⟩ := h; simp at hov
  | cons a rest ih =>
      match a with
      | none => exact ⟨.nullOffset, rfl, .inl rfl⟩
      | some v =>
          by_cases hv : v < 0
          · exact ⟨.negativeOffset v, by unfold validateOffsets; rw [if_pos hv],
              .inr ⟨v, rfl, hv, List.mem_cons_self _ _⟩⟩
          · obtain ⟨ov, hov, hbad⟩ := h
            have hov' : ov ∈ rest := by
              rcases List.mem_cons.mp hov with rfl | hm
              · rcases hbad with hnone | ⟨w, hw, hwlt⟩
                · exact absurd hnone (by simp)
                · injection hw with hw; subst hw; exact absurd hwlt hv
              · exact hm
            obtain ⟨e, he, hid⟩ := ih ⟨ov, hov', hbad⟩
            refine ⟨e, ?_, ?_⟩
            · unfold validateOffsets; rw [if_neg hv]; exact he
            · rcases hid with h1 | ⟨w, hw, hwlt, hmem⟩
              · exact .inl h1
              · exact .inr ⟨w, hw, hwlt, List.mem_cons_of_mem _ hmem⟩

theorem updateKRowsOffsetsColumn_ok (isK : Bool) (values : List (Option ℤ)) (startRow : ℤ)
    (h : ∀ ov ∈ values, ∃ w, ov = some w ∧ 0 ≤ w) :
    updateKRowsOffsetsColumn isK values startRow =
      .ok (values.enum.map fun iv => kRowsBound isK startRow iv.1 (iv.2.getD 0)) := by
  unfold updateKRowsOffsetsColumn
  rw [validateOffsets_ok values h]
  rfl

theorem kRowsBounds_get (isK : Bool) (values : List (Option ℤ)) (startRow : ℤ)
    (i : ℕ) (v : ℤ) (hi : values.get? i = some (some v)) :
    (values.enum.map fun iv => kRowsBound isK startRow iv.1 (iv.2.getD 0)).get? i =
      some (toInt32 (startRow + i + toInt32 (if isK then -v else v))) := by
  rw [List.get?_map, List.get?_enum, hi]
  rfl

/-- Counterexample to C4: an offset of `2^31` passes the non-negativity
validation, yet the resolved K FOLLOWING bound at `startRow = 0`, row 0 is
the 32-bit-wrapped `-2^31`, not the claimed exact `(startRow + i) + offset[i]
= 2^31`. -/
theorem updateKRowsOffsetsColumn_wraps_large_offset :
    updateKRowsOffsetsColumn false [some (2 ^ 31)] 0 = .ok [-(2 ^ 31)] ∧
    (-(2 ^ 31) : ℤ) ≠ (0 : ℤ) + ((0 : ℕ) : ℤ) + 2 ^ 31 :=
  ⟨rfl, by decide⟩

/-- C4 (amended): for a column-derived K offset slice, any null or negative
value makes resolution fail with a user error identifying the offending value
(null, or the negative number), with no bounds produced for the slice; when
every value is non-null and non-negative, the bound for row `i` is
`(startRow + i) ± offset[i]` narrowed through the 32-bit row-index type, which
equals the exact value whenever that sum fits in 32 bits. -/
theorem updateKRowsOffsetsColumn_validation_and_bounds (isK : Bool)
    (values : List (Option ℤ)) (startRow : ℤ) :
    ((∃ ov ∈ values, ov = none ∨ ∃ v, ov = some v ∧ v < 0) →
      ∃ e, updateKRowsOffsetsColumn isK values startRow = .error e ∧
        (e = .nullOffset ∨ ∃ v, e = .negativeOffset v ∧ v < 0 ∧ some v ∈ values)) ∧
    ((∀ ov ∈ values, ∃ w, ov = some w ∧ 0 ≤ w) →
      updateKRowsOffsetsColumn isK values startRow =
        .ok (values.enum.map fun iv => kRowsBound isK startRow iv.1 (iv.2.getD 0)) ∧
      ∀ i v, values.get? i = some (some v) →
        (values.enum.map fun iv => kRowsBound isK startRow iv.1 (iv.2.getD 0)).get? i =
          some (toInt32 (startRow + i + toInt32 (if isK then -v else v))) ∧
        (-(2 ^ 31) ≤ startRow + i + (if isK then -v else v) →
          startRow + i + (if isK then -v else v) < 2 ^ 31 →
          toInt32 (startRow + i + toInt32 (if isK then -v else v)) =
            startRow + i + (if isK then -v else v))) := by
  constructor
  · intro hbad
    obtain ⟨e, he, hid⟩ := validateOffsets_err values hbad
    refine ⟨e, ?_, hid⟩
    unfold updateKRowsOffsetsColumn
    rw [he]
    rfl
  · intro hok
    refine ⟨updateKRowsOffsetsColumn_ok isK values startRow hok, fun i v hi => ?_⟩
    refine ⟨kRowsBounds_get isK values startRow i v hi, fun hlb hub => ?_⟩
    rw [toInt32_add_toInt32]
    exact toInt32_eq_self hlb hub

/-- Witness for C4 (amended): a null at row 1 of a K PRECEDING offset column
fails with the null-offset user error and produces no bounds. -/
theorem updateKRowsOffsetsColumn_validation_and_bounds_witness :
    ∃ e, updateKRowsOffsetsColumn true [some 2, none, some 3] 5 = .error e ∧
      (e = .nullOffset ∨
        ∃ v, e = .negativeOffset v ∧ v < 0 ∧ some v ∈ [some 2, none, some 3]) :=
  (updateKRowsOffsetsColumn_validation_and_bounds true [some 2, none, some 3] 5).1
    ⟨none, by simp, Or.inl rfl⟩

/-- Counterexample to C6: a constant K FOLLOWING offset of `2^31` (accepted by
setup validation, which only requires non-negativity) resolves row 0 at
`startRow = 0` to the wrapped value `-2^31`, not the claimed
`startRow + i + offset = 2^31`. -/
theorem constant_k_bound_wraps_large_offset :
    updateKRowsFrameBounds false (.constant (2 ^ 31)) 0 1 samplePartition 0 =
      .ok [-(2 ^ 31)] ∧
    (-(2 ^ 31) : ℤ) ≠ 0 + ((0 : ℕ) : ℤ) + 2 ^ 31 :=
  ⟨rfl, by decide⟩

/-- C6 (amended): for a constant K offset the bounds are computed as an
arithmetic progression with step 1 seeded at `startRow - offset` (preceding)
or `startRow + offset` (following), each element narrowed through the 32-bit
row-index type on store; the resolved bound for row `i` therefore equals
`startRow + i ± offset` exactly whenever that value fits in 32 bits. -/
theorem updateKRowsFrameBounds_constant_progression (isK : Bool) (k startRow : ℤ)
    (numRows : ℕ) (part : Partition) (po : ℕ) :
    updateKRowsFrameBounds isK (.constant k) startRow numRows part po =
      .ok ((List.range numRows).map fun i : ℕ =>
        toInt32 (startRow + (if isK then -k else k) + i)) ∧
    (∀ i : ℕ, i < numRows →
      -(2 ^ 31) ≤ startRow + (if isK then -k else k) + i →
      startRow + (if isK then -k else k) + i < 2 ^ 31 →
      ((List.range numRows).map fun j : ℕ =>
        toInt32 (startRow + (if isK then -k else k) + j)).get? i =
        some (startRow + (if isK then -k else k) + i)) := by
  constructor
  · unfold updateKRowsFrameBounds
    rfl
  · intro i hi hlb hub
    rw [List.get?_map, List.get?_range hi]
    simp [toInt32_eq_self hlb hub]

/-- Witness for C6 (amended): constant K FOLLOWING offset 3 on a 4-row slice
from `startRow = 0`: row 2's resolved end bound is `0 + 3 + 2 = 5` (the
pre-repair value of the spec's test 4). -/
theorem updateKRowsFrameBounds_constant_progression_witness :
    ((List.range 4).map fun j : ℕ =>
      toInt32 ((0 : ℤ) + (if false then -(3 : ℤ) else 3) + j)).get? 2 =
      some ((0 : ℤ) + (if false then -(3 : ℤ) else 3) + (2 : ℕ)) :=
  (updateKRowsFrameBounds_constant_progression false 3 0 4 samplePartition 0).2
    2 (by decide) (by decide) (by decide)

/-- C10: for column-derived K offsets the per-row bound narrows the signed
product `±offset[i]` to the 32-bit row-index type before the 32-bit addition
of `startRow + i`, so the resulting bound is `(startRow + i) ± offset[i]`
reduced modulo `2^32` into the signed 32-bit range; for a K FOLLOWING offset
of magnitude at least `2^31` the result therefore differs from the exact
integer even though the value passed the non-negativity validation. -/
theorem column_k_offset_narrowing_mod32 (isK : Bool) (values : List (Option ℤ))
    (startRow : ℤ) (j : ℕ) (v : ℤ)
    (hwf : ∀ ov ∈ values, ∃ w, ov = some w ∧ 0 ≤ w)
    (hj : values.get? j = some (some v)) (hbig : 2 ^ 31 ≤ v) (hsr : 0 ≤ startRow) :
    ∃ bs, updateKRowsOffsetsColumn isK values startRow = .ok bs ∧
      bs.get? j = some (toInt32 (startRow + j + toInt32 (if isK then -v else v))) ∧
      toInt32 (startRow + j + toInt32 (if isK then -v else v)) =
        toInt32 (startRow + j + (if isK then -v else v)) ∧
      (isK = false → toInt32 (startRow + j + v) ≠ startRow + j + v) := by
  refine ⟨_, updateKRowsOffsetsColumn_ok isK values startRow hwf,
    kRowsBounds_get isK values startRow j v hj, toInt32_add_toInt32 _ _, fun _ => ?_⟩
  have hub := toInt32_ub (startRow + j + v)
  intro heq
  omega

/-- Witness for C10 at offset value `2^31`, `startRow = 0`, row 0, K
FOLLOWING. -/
theorem column_k_offset_narrowing_mod32_witness :
    ∃ bs, updateKRowsOffsetsColumn false [some (2 ^ 31)] 0 = .ok bs ∧
      bs.get? 0 = some (toInt32 ((0 : ℤ) + (0 : ℕ) + toInt32 (if false then -(2 ^ 31 : ℤ) else 2 ^ 31))) ∧
      toInt32 ((0 : ℤ) + (0 : ℕ) + toInt32 (if false then -(2 ^ 31 : ℤ) else 2 ^ 31)) =
        toInt32 ((0 : ℤ) + (0 : ℕ) + (if false then -(2 ^ 31 : ℤ) else 2 ^ 31)) ∧
      (false = false → toInt32 ((0 : ℤ) + (0 : ℕ) + 2 ^ 31) ≠ (0 : ℤ) + (0 : ℕ) + 2 ^ 31) :=
  column_k_offset_narrowing_mod32 false [some (2 ^ 31)] 0 0 (2 ^ 31)
    (fun ov hov => by
      simp only [List.mem_singleton] at hov
      exact ⟨2 ^ 31, hov, by decide⟩)
    rfl (by decide) (by decide)

/-! ### The output batching driver -/

/-- Driver-relevant operator state (the member variables of `Window` mutated
by the output path). `currentPartition` carries the partition's index among
all partitions produced so far together with its row count; `parts` is the
row-count list of the partitions the WindowBuild will still produce. -/
structure WindowOp where
  parts : List ℕ
  nextIdx : ℕ
  currentPartition : Option (ℕ × ℕ)
  partitionOffset : ℕ
  peerStartRow : ℕ
  peerEndRow : ℕ
  numProcessedRows : ℕ
  numRows : ℕ
deriving DecidableEq

/-- Observable calls the driver makes: `resetPartition` on window function
`f` for partition `p`; the partition's `computePeerBuffers` for a slice with
its continuation seed; `apply` of function `f` on a slice of partition `p`. -/
inductive WinEvent
  | reset (f p : ℕ)
  | peer (p startRow endRow seedStart seedEnd : ℕ)
  | apply (f p startRow endRow : ℕ)
deriving DecidableEq

/-- `Window::callResetPartition`: zero the cursor and the peer continuation,
drop the current partition, and if the build has another partition install it
and notify every window function (in order). -/
def callResetPartition (F : ℕ) (s : WindowOp) : WindowOp × List WinEvent :=
  match s.parts with
  | [] =>
      ({ s with
          partitionOffset := 0
          peerStartRow := 0
          peerEndRow := 0
          currentPartition := none },
        [])
  | n :: rest =>
      ({ s with
          partitionOffset := 0
          peerStartRow := 0
          peerEndRow := 0
          currentPartition := some (s.nextIdx, n)
          parts := rest
          nextIdx := s.nextIdx + 1 },
        (List.range F).map fun f => .reset f s.nextIdx)

/-- `Window::callApplyForPartitionRows` for the slice `[startRow, endRow)`:
compute peer buffers seeded from the stored continuation (recording the call
made to the partition's `computePeerBuffers`, whose results `pf` abstracts),
apply every function, and advance the cursor and processed-row count. The
C++ requires a current partition; the `none` arm is never reached from the
loop. -/
def callApplyForPartitionRows (F : ℕ) (pf : ℕ → ℕ → ℕ → ℕ × ℕ → ℕ × ℕ)
    (s : WindowOp) (startRow endRow : ℕ) : WindowOp × List WinEvent :=
  match s.currentPartition with
  | none => (s, [])
  | some pn =>
      let seed := (s.peerStartRow, s.peerEndRow)
      let ps := pf pn.1 startRow endRow seed
      ({ s with
          peerStartRow := ps.1
          peerEndRow := ps.2
          numProcessedRows := s.numProcessedRows + (endRow - startRow)
          partitionOffset := s.partitionOffset + (endRow - startRow) },
        .peer pn.1 startRow endRow seed.1 seed.2 ::
          (List.range F).map fun f => .apply f pn.1 startRow endRow)

theorem parts_callApplyForPartitionRows (F : ℕ) (pf : ℕ → ℕ → ℕ → ℕ × ℕ → ℕ × ℕ)
    (s : WindowOp) (a b : ℕ) :
    (callApplyForPartitionRows F pf s a b).1.parts = s.parts := by
  unfold callApplyForPartitionRows
  match s.currentPartition with
  | none => rfl
  | some pn => rfl

theorem parts_callResetPartition_lt (F : ℕ) (s : WindowOp)
    (h : (callResetPartition F s).1.currentPartition.isSome) :
    (callResetPartition F s).1.parts.length < s.parts.length := by
  unfold callResetPartition at h ⊢
  rcases hp : s.parts with _ | ⟨n, rest⟩ <;> simp_all

/-- `Window::callApplyLoop`: fill up to `numOutputRowsLeft` output rows,
crossing whole partitions while they fit and otherwise stopping mid-partition. -/
def callApplyLoop (F : ℕ) (pf : ℕ → ℕ → ℕ → ℕ × ℕ → ℕ × ℕ)
    (numOutputRowsLeft : ℕ) (s : WindowOp) : WindowOp × List WinEvent :=
  if numOutputRowsLeft = 0 then (s, [])
  else
    match s.currentPartition with
    | none => (s, [])
    | some pn =>
        let rowsForCurrentPartition := pn.2 - s.partitionOffset
        if rowsForCurrentPartition ≤ numOutputRowsLeft then
          let r1 := callApplyForPartitionRows F pf s s.partitionOffset
            (s.partitionOffset + rowsForCurrentPartition)
          let r2 := callResetPartition F r1.1
          if h2 : r2.1.currentPartition.isSome then
            let r3 := callApplyLoop F pf (numOutputRowsLeft - rowsForCurrentPartition) r2.1
            (r3.1, r1.2 ++ r2.2 ++ r3.2)
          else (r2.1, r1.2 ++ r2.2)
        else
          let r1 := callApplyForPartitionRows F pf s s.partitionOffset
            (s.partitionOffset + numOutputRowsLeft)
          (r1.1, r1.2)
termination_by s.parts.length
decreasing_by
  have hp : r1.1.parts = s.parts :=
    parts_callApplyForPartitionRows F pf s s.partitionOffset
      (s.partitionOffset + rowsForCurrentPartition)
  have hlt := parts_callResetPartition_lt F r1.1 h2
  show (callResetPartition F r1.1).1.parts.length < s.parts.length
  rw [hp] at hlt
  exact hlt



/-- `Window::getOutput`: no output before any input or when all rows are
processed; otherwise ensure a current partition (resetting if needed; if the
build has none, produce nothing), then fill `min(budget, rows left)` rows. -/
def getOutput (F : ℕ) (pf : ℕ → ℕ → ℕ → ℕ × ℕ → ℕ × ℕ) (numRowsPerOutput : ℕ)
    (s : WindowOp) : Option ℕ × WindowOp × List WinEvent :=
  if s.numRows = 0 then (none, s, [])
  else
    let numRowsLeft := s.numRows - s.numProcessedRows
    if numRowsLeft = 0 then (none, s, [])
    else
      let r0 := match s.currentPartition with
        | none => callResetPartition F s
        | some _ => (s, [])
      match r0.1.currentPartition with
      | none => (none, r0.1, r0.2)
      | some _ =>
          let numOutputRows := min numRowsPerOutput numRowsLeft
          let r := callApplyLoop F pf numOutputRows r0.1
          (some numOutputRows, r.1, r0.2 ++ r.2)

/-- Iterate `getOutput` `k` times, collecting the produced row counts and the
full event trace. -/
def runCalls (F : ℕ) (pf : ℕ → ℕ → ℕ → ℕ × ℕ → ℕ × ℕ) (numRowsPerOutput : ℕ) :
    ℕ → WindowOp → List (Option ℕ) × WindowOp × List WinEvent
  | 0, s => ([], s, [])
  | k + 1, s =>
      let r := getOutput F pf numRowsPerOutput s
      let rs := runCalls F pf numRowsPerOutput k r.2.1
      (r.1 :: rs.1, rs.2.1, r.2.2 ++ rs.2.2)

/-- The operator state right after `noMoreInput` on an input whose sorted
partitions have the row counts `ps`. -/
def initOp (ps : List ℕ) : WindowOp :=
  ⟨ps, 0, none, 0, 0, 0, 0, ps.sum⟩

/-- A trivial concrete stand-in for the partition's `computePeerBuffers`
result (each row its own peer group): returns the slice end as both
continuation values. -/
def trivialPeerFn : ℕ → ℕ → ℕ → ℕ × ℕ → ℕ × ℕ := fun _ _ endRow _ => (endRow, endRow)


/-! ### Driver invariants and event-trace structure -/

/-- Rows not yet processed that the remaining partitions (current one
included) still hold. -/
def remainingRows (s : WindowOp) : ℕ :=
  (match s.currentPartition with
   | some pn => pn.2 - s.partitionOffset
   | none => 0) + s.parts.sum

/-- Well-formedness of a driver state: the current partition (when present)
is the one installed last and its cursor is in range; processed plus
remaining rows account for the whole input; pending partitions are
non-empty (`SortWindowBuild` never emits an empty partition). -/
def WF (s : WindowOp) : Prop :=
  (∀ pn, s.currentPartition = some pn → pn.1 + 1 = s.nextIdx ∧ s.partitionOffset ≤ pn.2) ∧
  s.numProcessedRows + remainingRows s = s.numRows ∧
  (∀ n ∈ s.parts, 0 < n)

/-- Partition `p` is the current partition of `s`. -/
def statusCurrent (p : ℕ) (s : WindowOp) : Prop :=
  ∃ n, s.currentPartition = some (p, n)

/-- Partition `p` has not been installed yet. -/
def statusPending (p : ℕ) (s : WindowOp) : Prop :=
  s.nextIdx ≤ p

/-- Partition `p` was installed and is no longer current. -/
def statusDone (p : ℕ) (s : WindowOp) : Prop :=
  p < s.nextIdx ∧ ¬statusCurrent p s

/-- The partition an event belongs to. -/
def WinEvent.part : WinEvent → ℕ
  | .reset _ p => p
  | .peer p _ _ _ _ => p
  | .apply _ p _ _ => p

/-- The events of one partition, in trace order. -/
def partTrace (p : ℕ) (t : List WinEvent) : List WinEvent :=
  t.filter fun e => e.part = p

/-- True for `peer` and `apply` events, false for `reset`. -/
def WinEvent.isApplyOrPeer : WinEvent → Bool
  | .reset _ _ => false
  | _ => true

/-- The block of `resetPartition` notifications the driver issues when
partition `p` is installed: one per function, in function order. -/
def resetsBlock (F p : ℕ) : List WinEvent :=
  (List.range F).map fun f => .reset f p

/-- The `computePeerBuffers` calls recorded for partition `p`:
`(startRow, endRow, seedStart, seedEnd)` per slice, in order. -/
def peerEvents (p : ℕ) (t : List WinEvent) : List (ℕ × ℕ × ℕ × ℕ) :=
  t.filterMap fun e =>
    match e with
    | .peer q a b sa sb => if q = p then some (a, b, sa, sb) else none
    | _ => none

/-- `chainFrom pf p seed pos l fin`: the recorded peer computations `l` form a
continuation chain that starts at cursor `pos` with seed `seed`, each call
seeded by the previous call's return and starting where it ended, finishing
in state `fin` (final seed and cursor). -/
def chainFrom (pf : ℕ → ℕ → ℕ → ℕ × ℕ → ℕ × ℕ) (p : ℕ) :
    ℕ × ℕ → ℕ → List (ℕ × ℕ × ℕ × ℕ) → (ℕ × ℕ) × ℕ → Prop
  | seed, pos, [], fin => fin = (seed, pos)
  | seed, pos, (a, b, sa, sb) :: rest, fin =>
      sa = seed.1 ∧ sb = seed.2 ∧ a = pos ∧ chainFrom pf p (pf p a b seed) b rest fin

/-- One driver step from `s` to `s'` emitting `t` respects the per-partition
event discipline: finished partitions get no further events; the current
partition gets only applies/peer computations whose seeds chain from the
stored continuation; a pending partition gets nothing until it is installed,
at which point its trace starts with the full resets block and its peer
computations chain from the zeroed continuation. -/
def StepOk (F : ℕ) (pf : ℕ → ℕ → ℕ → ℕ × ℕ → ℕ × ℕ) (s s' : WindowOp)
    (t : List WinEvent) : Prop :=
  (∀ p, statusDone p s → statusDone p s' ∧ partTrace p t = []) ∧
  (∀ p, statusCurrent p s →
    (statusCurrent p s' ∨ statusDone p s') ∧
    (partTrace p t).all WinEvent.isApplyOrPeer = true ∧
    ∃ fin, chainFrom pf p (s.peerStartRow, s.peerEndRow) s.partitionOffset
        (peerEvents p t) fin ∧
      (statusCurrent p s' → fin = ((s'.peerStartRow, s'.peerEndRow), s'.partitionOffset))) ∧
  (∀ p, statusPending p s →
    (statusPending p s' → partTrace p t = []) ∧
    (¬statusPending p s' →
      (∃ rest, partTrace p t = resetsBlock F p ++ rest ∧
        rest.all WinEvent.isApplyOrPeer = true) ∧
      ∃ fin, chainFrom pf p (0, 0) 0 (peerEvents p t) fin ∧
        (statusCurrent p s' → fin = ((s'.peerStartRow, s'.peerEndRow), s'.partitionOffset)))) ∧
  s.nextIdx ≤ s'.nextIdx ∧ s'.nextIdx + s'.parts.length = s.nextIdx + s.parts.length
/-! ### Trace composition lemmas -/

theorem partTrace_append (p : ℕ) (t1 t2 : List WinEvent) :
    partTrace p (t1 ++ t2) = partTrace p t1 ++ partTrace p t2 := by
  simp [partTrace]

theorem peerEvents_append (p : ℕ) (t1 t2 : List WinEvent) :
    peerEvents p (t1 ++ t2) = peerEvents p t1 ++ peerEvents p t2 := by
  simp [peerEvents]

theorem peerEvents_eq_nil_of_partTrace (p : ℕ) (t : List WinEvent)
    (h : partTrace p t = []) : peerEvents p t = [] := by
  induction t with
  | nil => rfl
  | cons e rest ih =>
      unfold partTrace at h ih
      unfold peerEvents at ih ⊢
      rw [List.filter_cons] at h
      rw [List.filterMap_cons]
      by_cases hp : e.part = p
      · simp [hp] at h
      · simp only [hp, decide_False, if_false] at h
        rw [ih h]
        match e with
        | .reset f q => rfl
        | .apply f q a b => rfl
        | .peer q a b sa sb =>
            have hq : ¬(q = p) := by simpa [WinEvent.part] using hp
            simp [hq]

theorem chainFrom_append (pf : ℕ → ℕ → ℕ → ℕ × ℕ → ℕ × ℕ) (p : ℕ) :
    ∀ (l1 l2 : List (ℕ × ℕ × ℕ × ℕ)) (seed : ℕ × ℕ) (pos : ℕ)
      (mid fin : (ℕ × ℕ) × ℕ),
      chainFrom pf p seed pos l1 mid → chainFrom pf p mid.1 mid.2 l2 fin →
      chainFrom pf p seed pos (l1 ++ l2) fin := by
  intro l1
  induction l1 with
  | nil =>
      intro l2 seed pos mid fin h1 h2
      unfold chainFrom at h1
      subst h1
      simpa using h2
  | cons e rest ih =>
      intro l2 seed pos mid fin h1 h2
      match e with
      | (a, b, sa, sb) =>
          obtain ⟨hsa, hsb, ha, hrest⟩ := h1
          exact ⟨hsa, hsb, ha, ih l2 _ _ mid fin hrest h2⟩

theorem not_pending_iff (p : ℕ) (s : WindowOp) (hwf : WF s) :
    ¬statusPending p s ↔ statusCurrent p s ∨ statusDone p s := by
  unfold statusPending statusDone
  constructor
  · intro h
    by_cases hc : statusCurrent p s
    · exact .inl hc
    · exact .inr ⟨by omega, hc⟩
  · rintro (⟨n, hn⟩ | ⟨h1, _⟩)
    · have := (hwf.1 (p, n) hn).1
      omega
    · omega

theorem cur_or_done_of_not_pending {p : ℕ} {s : WindowOp} (h : ¬statusPending p s) :
    statusCurrent p s ∨ statusDone p s := by
  by_cases hc : statusCurrent p s
  · exact .inl hc
  · unfold statusPending at h
    exact .inr ⟨by omega, hc⟩

theorem StepOk_trans (F : ℕ) (pf : ℕ → ℕ → ℕ → ℕ × ℕ → ℕ × ℕ)
    (s1 s2 s3 : WindowOp) (t1 t2 : List WinEvent)
    (h12 : StepOk F pf s1 s2 t1) (h23 : StepOk F pf s2 s3 t2) :
    StepOk F pf s1 s3 (t1 ++ t2) := by
  obtain ⟨d12, c12, p12, m12, n12⟩ := h12
  obtain ⟨d23, c23, p23, m23, n23⟩ := h23
  refine ⟨?_, ?_, ?_, le_trans m12 m23, by omega⟩
  · intro p hp
    obtain ⟨hd2, ht1⟩ := d12 p hp
    obtain ⟨hd3, ht2⟩ := d23 p hd2
    refine ⟨hd3, ?_⟩
    rw [partTrace_append, ht1, ht2]
    rfl
  · intro p hp
    obtain ⟨hstat2, hall1, fin1, hchain1, hfin1⟩ := c12 p hp
    rcases hstat2 with hcur2 | hdone2
    · obtain ⟨hstat3, hall2, fin2, hchain2, hfin2⟩ := c23 p hcur2
      refine ⟨hstat3, ?_, fin2, ?_, hfin2⟩
      · rw [partTrace_append, List.all_append, hall1, hall2]
        rfl
      · rw [peerEvents_append]
        have hfe := hfin1 hcur2
        subst hfe
        exact chainFrom_append pf p _ _ _ _ _ fin2 hchain1 hchain2
    · obtain ⟨hd3, ht2⟩ := d23 p hdone2
      refine ⟨.inr hd3, ?_, fin1, ?_, fun hcur3 => absurd hcur3 hd3.2⟩
      · rw [partTrace_append, ht2, List.append_nil]
        exact hall1
      · rw [peerEvents_append, peerEvents_eq_nil_of_partTrace p t2 ht2, List.append_nil]
        exact hchain1
  · intro p hp
    by_cases hp2 : statusPending p s2
    · have ht1 := (p12 p hp).1 hp2
      constructor
      · intro hp3
        have ht2 := (p23 p hp2).1 hp3
        rw [partTrace_append, ht1, ht2]
        rfl
      · intro hp3
        obtain ⟨⟨rest, hpt2, hrest⟩, fin2, hch2, hfin2⟩ := (p23 p hp2).2 hp3
        refine ⟨⟨rest, ?_, hrest⟩, fin2, ?_, hfin2⟩
        · rw [partTrace_append, ht1]
          simpa using hpt2
        · rw [peerEvents_append, peerEvents_eq_nil_of_partTrace p t1 ht1]
          simpa using hch2
    · obtain ⟨⟨rest, hpt1, hrest⟩, fin1, hch1, hfin1⟩ := (p12 p hp).2 hp2
      have hnp3 : ¬statusPending p s3 := fun hp3 => hp2 (le_trans m23 hp3)
      constructor
      · intro hp3
        exact absurd hp3 hnp3
      · intro _
        rcases cur_or_done_of_not_pending hp2 with hcur2 | hdone2
        · obtain ⟨hstat3, hall2, fin2, hch2, hfin2⟩ := c23 p hcur2
          refine ⟨⟨rest ++ partTrace p t2, ?_, ?_⟩, fin2, ?_, hfin2⟩
          · rw [partTrace_append, hpt1, List.append_assoc]
          · rw [List.all_append, hrest, hall2]
            rfl
          · rw [peerEvents_append]
            have hfe := hfin1 hcur2
            subst hfe
            exact chainFrom_append pf p _ _ _ _ _ fin2 hch1 hch2
        · obtain ⟨hd3, ht2⟩ := d23 p hdone2
          refine ⟨⟨rest, ?_, hrest⟩, fin1, ?_, fun hcur3 => absurd hcur3 hd3.2⟩
          · rw [partTrace_append, ht2, List.append_nil]
            exact hpt1
          · rw [peerEvents_append, peerEvents_eq_nil_of_partTrace p t2 ht2, List.append_nil]
            exact hch1

theorem partTrace_of_forall (p q : ℕ) (t : List WinEvent)
    (h : ∀ e ∈ t, WinEvent.part e = q) :
    partTrace p t = if q = p then t else [] := by
  induction t with
  | nil => simp [partTrace]
  | cons e rest ih =>
      have he := h e (List.mem_cons_self _ _)
      have hr := ih fun e' he' => h e' (List.mem_cons_of_mem _ he')
      unfold partTrace at hr ⊢
      rw [List.filter_cons]
      by_cases hqp : q = p
      · subst hqp
        simp [he, hr]
      · have hne : ¬(e.part = p) := by rw [he]; exact hqp
        simp [hne, hr, hqp]

/-- The events one slice application emits. -/
def sliceEvents (F : ℕ) (p a b sa sb : ℕ) : List WinEvent :=
  .peer p a b sa sb :: (List.range F).map fun f => .apply f p a b

theorem sliceEvents_part (F p a b sa sb : ℕ) :
    ∀ e ∈ sliceEvents F p a b sa sb, WinEvent.part e = p := by
  intro e he
  rcases List.mem_cons.mp he with rfl | hm
  · rfl
  · obtain ⟨f, _, rfl⟩ := List.mem_map.mp hm
    rfl

theorem sliceEvents_applyOrPeer (F p a b sa sb : ℕ) :
    (sliceEvents F p a b sa sb).all WinEvent.isApplyOrPeer = true := by
  rw [List.all_eq_true]
  intro e he
  rcases List.mem_cons.mp he with rfl | hm
  · rfl
  · obtain ⟨f, _, rfl⟩ := List.mem_map.mp hm
    rfl

theorem sliceEvents_peerEvents (F p a b sa sb : ℕ) :
    peerEvents p (sliceEvents F p a b sa sb) = [(a, b, sa, sb)] := by
  unfold peerEvents sliceEvents
  rw [List.filterMap_cons]
  simp only [if_pos rfl]
  have : ∀ l : List ℕ, (l.map fun f => WinEvent.apply f p a b).filterMap
      (fun e => match e with
        | .peer q a b sa sb => if q = p then some (a, b, sa, sb) else none
        | _ => none) = [] := by
    intro l
    induction l with
    | nil => rfl
    | cons x xs ih => simpa using ih
  simpa using this (List.range F)

theorem resetsBlock_part (F q : ℕ) :
    ∀ e ∈ resetsBlock F q, WinEvent.part e = q := by
  intro e he
  obtain ⟨f, _, rfl⟩ := List.mem_map.mp he
  rfl

theorem peerEvents_resetsBlock (p F q : ℕ) : peerEvents p (resetsBlock F q) = [] := by
  unfold peerEvents resetsBlock
  induction (List.range F) with
  | nil => rfl
  | cons x xs ih => simpa using ih

theorem StepOk_callApplyForPartitionRows (F : ℕ) (pf : ℕ → ℕ → ℕ → ℕ × ℕ → ℕ × ℕ)
    (s : WindowOp) (pn : ℕ × ℕ) (b : ℕ)
    (hc : s.currentPartition = some pn) (hwf1 : pn.1 + 1 = s.nextIdx)
    (hab : s.partitionOffset ≤ b) :
    StepOk F pf s (callApplyForPartitionRows F pf s s.partitionOffset b).1
      (callApplyForPartitionRows F pf s s.partitionOffset b).2 := by
  have heq : callApplyForPartitionRows F pf s s.partitionOffset b =
      ({ s with
          peerStartRow := (pf pn.1 s.partitionOffset b (s.peerStartRow, s.peerEndRow)).1
          peerEndRow := (pf pn.1 s.partitionOffset b (s.peerStartRow, s.peerEndRow)).2
          numProcessedRows := s.numProcessedRows + (b - s.partitionOffset)
          partitionOffset := s.partitionOffset + (b - s.partitionOffset) },
        sliceEvents F pn.1 s.partitionOffset b s.peerStartRow s.peerEndRow) := by
    unfold callApplyForPartitionRows sliceEvents
    rw [hc]
  rw [heq]
  dsimp only
  have hparts : ∀ e ∈ sliceEvents F pn.1 s.partitionOffset b s.peerStartRow s.peerEndRow,
      WinEvent.part e = pn.1 := sliceEvents_part _ _ _ _ _ _
  have hoff : s.partitionOffset + (b - s.partitionOffset) = b := by omega
  refine ⟨?_, ?_, ?_, le_refl _, rfl⟩
  · intro p hp
    have hne : pn.1 ≠ p := by
      intro h
      exact hp.2 ⟨pn.2, by rw [hc, ← h]⟩
    refine ⟨⟨hp.1, fun hcur => hp.2 hcur⟩, ?_⟩
    rw [partTrace_of_forall p pn.1 _ hparts, if_neg hne]
  · intro p hp
    obtain ⟨n, hn⟩ := hp
    have hppn : pn.1 = p := by
      rw [hc] at hn
      injection hn with h
      rw [h]
    subst hppn
    refine ⟨.inl ⟨n, hn⟩, ?_,
      ((pf pn.1 s.partitionOffset b (s.peerStartRow, s.peerEndRow)), b), ?_, ?_⟩
    · rw [partTrace_of_forall pn.1 pn.1 _ hparts, if_pos rfl]
      exact sliceEvents_applyOrPeer _ _ _ _ _ _
    · rw [sliceEvents_peerEvents]
      exact ⟨rfl, rfl, rfl, rfl⟩
    · intro _
      dsimp only
      rw [hoff]
  · intro p hp
    refine ⟨?_, fun hnp => absurd hp hnp⟩
    intro _
    have hne : pn.1 ≠ p := by
      unfold statusPending at hp
      omega
    rw [partTrace_of_forall p pn.1 _ hparts, if_neg hne]

theorem StepOk_callResetPartition (F : ℕ) (pf : ℕ → ℕ → ℕ → ℕ × ℕ → ℕ × ℕ)
    (s : WindowOp)
    (hcw : ∀ pn, s.currentPartition = some pn → pn.1 + 1 = s.nextIdx) :
    StepOk F pf s (callResetPartition F s).1 (callResetPartition F s).2 := by
  rcases hps : s.parts with _ | ⟨n, rest⟩
  · have heq : callResetPartition F s =
        ({ s with
            partitionOffset := 0
            peerStartRow := 0
            peerEndRow := 0
            currentPartition := none }, []) := by
      unfold callResetPartition
      rw [hps]
    rw [heq]
    dsimp only
    refine ⟨?_, ?_, ?_, le_refl _, rfl⟩
    · intro p hp
      exact ⟨⟨hp.1, fun ⟨m, hm⟩ => Option.noConfusion hm⟩, rfl⟩
    · intro p hp
      obtain ⟨m, hm⟩ := hp
      have hpn := hcw (p, m) hm
      refine ⟨.inr ⟨by first | omega | (dsimp only; omega), fun ⟨m', hm'⟩ => Option.noConfusion hm'⟩, rfl,
        ((s.peerStartRow, s.peerEndRow), s.partitionOffset), rfl,
        fun ⟨m', hm'⟩ => Option.noConfusion hm'⟩
    · intro p hp
      exact ⟨fun _ => rfl, fun hnp => absurd hp hnp⟩
  · have heq : callResetPartition F s =
        ({ s with
            partitionOffset := 0
            peerStartRow := 0
            peerEndRow := 0
            currentPartition := some (s.nextIdx, n)
            parts := rest
            nextIdx := s.nextIdx + 1 }, resetsBlock F s.nextIdx) := by
      unfold callResetPartition resetsBlock
      rw [hps]
    rw [heq]
    dsimp only
    have hcons : rest.length + 1 = s.parts.length := by
      rw [hps]
      rfl
    refine ⟨?_, ?_, ?_, by first | omega | (dsimp only; omega), by first | omega | (dsimp only; omega)⟩
    · intro p hp
      have hlt : p < s.nextIdx := hp.1
      have hne : s.nextIdx ≠ p := by omega
      refine ⟨⟨by first | omega | (dsimp only; omega), fun ⟨m, hm⟩ => ?_⟩, ?_⟩
      · injection hm with hm'
        exact hne (congrArg Prod.fst hm')
      · rw [partTrace_of_forall p s.nextIdx _ (resetsBlock_part F s.nextIdx), if_neg hne]
    · intro p hp
      obtain ⟨m, hm⟩ := hp
      have hpn := hcw (p, m) hm
      have hne : s.nextIdx ≠ p := by first | omega | (dsimp only; omega)
      refine ⟨.inr ⟨by first | omega | (dsimp only; omega), fun ⟨m', hm'⟩ => ?_⟩, ?_,
        ((s.peerStartRow, s.peerEndRow), s.partitionOffset), ?_, ?_⟩
      · injection hm' with hm''
        exact hne (congrArg Prod.fst hm'')
      · rw [partTrace_of_forall p s.nextIdx _ (resetsBlock_part F s.nextIdx), if_neg hne]
        rfl
      · rw [peerEvents_resetsBlock]
        rfl
      · rintro ⟨m', hm'⟩
        injection hm' with hm''
        exact absurd (congrArg Prod.fst hm'') hne
    · intro p hp
      by_cases hpe : p = s.nextIdx
      · subst hpe
        constructor
        · intro hp'
          have hcontra : s.nextIdx + 1 ≤ s.nextIdx := hp'
          omega
        · intro _
          refine ⟨⟨[], ?_, rfl⟩, ((0, 0), 0), ?_, ?_⟩
          · rw [partTrace_of_forall s.nextIdx s.nextIdx _ (resetsBlock_part F s.nextIdx),
              if_pos rfl, List.append_nil]
          · rw [peerEvents_resetsBlock]
            rfl
          · intro _
            rfl
      · have hgt : s.nextIdx < p := by
          have hle : s.nextIdx ≤ p := hp
          omega
        constructor
        · intro _
          rw [partTrace_of_forall p s.nextIdx _ (resetsBlock_part F s.nextIdx),
            if_neg (Ne.symm hpe)]
        · intro hnp
          exact absurd hgt hnp

theorem StepOk_refl (F : ℕ) (pf : ℕ → ℕ → ℕ → ℕ × ℕ → ℕ × ℕ) (s : WindowOp) :
    StepOk F pf s s [] := by
  refine ⟨fun p hp => ⟨hp, rfl⟩,
    fun p hp => ⟨.inl hp, rfl,
      ((s.peerStartRow, s.peerEndRow), s.partitionOffset), rfl, fun _ => rfl⟩,
    fun p hp => ⟨fun _ => rfl, fun hnp => absurd hp hnp⟩, le_refl _, rfl⟩

theorem callApplyForPartitionRows_eq (F : ℕ) (pf : ℕ → ℕ → ℕ → ℕ × ℕ → ℕ × ℕ)
    (s : WindowOp) (pn : ℕ × ℕ) (b : ℕ) (hc : s.currentPartition = some pn) :
    callApplyForPartitionRows F pf s s.partitionOffset b =
      ({ s with
          peerStartRow := (pf pn.1 s.partitionOffset b (s.peerStartRow, s.peerEndRow)).1
          peerEndRow := (pf pn.1 s.partitionOffset b (s.peerStartRow, s.peerEndRow)).2
          numProcessedRows := s.numProcessedRows + (b - s.partitionOffset)
          partitionOffset := s.partitionOffset + (b - s.partitionOffset) },
        sliceEvents F pn.1 s.partitionOffset b s.peerStartRow s.peerEndRow) := by
  unfold callApplyForPartitionRows sliceEvents
  rw [hc]

theorem callResetPartition_eq_nil (F : ℕ) (s : WindowOp) (hps : s.parts = []) :
    callResetPartition F s =
      ({ s with
          partitionOffset := 0
          peerStartRow := 0
          peerEndRow := 0
          currentPartition := none }, []) := by
  unfold callResetPartition
  rw [hps]

theorem callResetPartition_eq_cons (F : ℕ) (s : WindowOp) (n : ℕ) (rest : List ℕ)
    (hps : s.parts = n :: rest) :
    callResetPartition F s =
      ({ s with
          partitionOffset := 0
          peerStartRow := 0
          peerEndRow := 0
          currentPartition := some (s.nextIdx, n)
          parts := rest
          nextIdx := s.nextIdx + 1 }, resetsBlock F s.nextIdx) := by
  unfold callResetPartition resetsBlock
  rw [hps]

theorem callApplyLoop_eq (F : ℕ) (pf : ℕ → ℕ → ℕ → ℕ × ℕ → ℕ × ℕ)
    (budget : ℕ) (s : WindowOp) :
    callApplyLoop F pf budget s =
      if budget = 0 then (s, [])
      else
        match s.currentPartition with
        | none => (s, [])
        | some pn =>
            if pn.2 - s.partitionOffset ≤ budget then
              let r1 := callApplyForPartitionRows F pf s s.partitionOffset
                (s.partitionOffset + (pn.2 - s.partitionOffset))
              let r2 := callResetPartition F r1.1
              if r2.1.currentPartition.isSome then
                let r3 := callApplyLoop F pf (budget - (pn.2 - s.partitionOffset)) r2.1
                (r3.1, r1.2 ++ r2.2 ++ r3.2)
              else (r2.1, r1.2 ++ r2.2)
            else
              let r1 := callApplyForPartitionRows F pf s s.partitionOffset
                (s.partitionOffset + budget)
              (r1.1, r1.2) := by
  rw [callApplyLoop]
  rcases s.currentPartition with _ | pn
  · rfl
  · dsimp only
    by_cases hfit : pn.2 - s.partitionOffset ≤ budget
    · rw [if_pos hfit, if_pos hfit]
      by_cases hnext : (callResetPartition F (callApplyForPartitionRows F pf s
          s.partitionOffset (s.partitionOffset + (pn.2 - s.partitionOffset))).1).1.currentPartition.isSome
      · rw [dif_pos hnext, if_pos hnext]
      · rw [dif_neg hnext, if_neg hnext]
    · rw [if_neg hfit, if_neg hfit]

theorem callApplyLoop_spec (F : ℕ) (pf : ℕ → ℕ → ℕ → ℕ × ℕ → ℕ × ℕ) :
    ∀ (N budget : ℕ) (s : WindowOp), s.parts.length ≤ N → WF s →
      budget ≤ remainingRows s → (budget = 0 ∨ s.currentPartition.isSome = true) →
      StepOk F pf s (callApplyLoop F pf budget s).1 (callApplyLoop F pf budget s).2 ∧
      WF (callApplyLoop F pf budget s).1 ∧
      (callApplyLoop F pf budget s).1.numProcessedRows = s.numProcessedRows + budget ∧
      (callApplyLoop F pf budget s).1.numRows = s.numRows ∧
      (0 < budget → ∀ pn, s.currentPartition = some pn →
        (¬statusCurrent pn.1 (callApplyLoop F pf budget s).1 ↔
          pn.2 - s.partitionOffset ≤ budget) ∧
        (statusCurrent pn.1 (callApplyLoop F pf budget s).1 →
          (callApplyLoop F pf budget s).1.partitionOffset = s.partitionOffset + budget ∧
          (callApplyLoop F pf budget s).1.partitionOffset < pn.2)) := by
  intro N
  induction N using Nat.strong_induction_on with
  | _ N ih =>
    intro budget s hN hwf hbr hgate
    by_cases hb0 : budget = 0
    · rw [callApplyLoop_eq, if_pos hb0]
      exact ⟨StepOk_refl F pf s, hwf, by dsimp only; omega, rfl,
        fun hbpos _ _ => absurd hb0 (by omega)⟩
    · rw [callApplyLoop_eq, if_neg hb0]
      rcases hgate with rfl | hsome
      · exact absurd rfl hb0
      rcases hc : s.currentPartition with _ | pn
      · rw [hc] at hsome
        exact absurd hsome (by simp)
      dsimp only
      obtain ⟨hw1, hw2, hw3⟩ := hwf
      obtain ⟨hpn, hoffle⟩ := hw1 pn hc
      have hrem : remainingRows s = (pn.2 - s.partitionOffset) + s.parts.sum := by
        unfold remainingRows
        rw [hc]
      by_cases hfit : pn.2 - s.partitionOffset ≤ budget
      · rw [if_pos hfit]
        set r1 := callApplyForPartitionRows F pf s s.partitionOffset
          (s.partitionOffset + (pn.2 - s.partitionOffset)) with hr1
        have happly := callApplyForPartitionRows_eq F pf s pn
          (s.partitionOffset + (pn.2 - s.partitionOffset)) hc
        have h1parts : r1.1.parts = s.parts := by rw [hr1, happly]
        have h1cur : r1.1.currentPartition = some pn := by rw [hr1, happly]; exact hc
        have h1next : r1.1.nextIdx = s.nextIdx := by rw [hr1, happly]
        have h1off : r1.1.partitionOffset = pn.2 := by
          rw [hr1, happly]
          dsimp only
          omega
        have h1proc : r1.1.numProcessedRows =
            s.numProcessedRows + (pn.2 - s.partitionOffset) := by
          rw [hr1, happly]
          dsimp only
          omega
        have h1rows : r1.1.numRows = s.numRows := by rw [hr1, happly]
        have hstep1 : StepOk F pf s r1.1 r1.2 := by
          rw [hr1]
          exact StepOk_callApplyForPartitionRows F pf s pn _ hc hpn (by omega)
        have hwf1 : WF r1.1 := by
          refine ⟨?_, ?_, ?_⟩
          · intro qn hq
            rw [h1cur] at hq
            injection hq with hq'
            subst hq'
            rw [h1next, h1off]
            exact ⟨hpn, le_refl _⟩
          · unfold remainingRows
            rw [h1cur]
            dsimp only
            rw [h1off, h1parts, h1proc, h1rows]
            omega
          · rw [h1parts]
            exact hw3
        set r2 := callResetPartition F r1.1 with hr2
        have hstep2 : StepOk F pf r1.1 r2.1 r2.2 := by
          rw [hr2]
          exact StepOk_callResetPartition F pf r1.1 fun qn hq => (hwf1.1 qn hq).1
        rcases hps : s.parts with _ | ⟨m, rest⟩
        · -- no further partition: the loop ends with this partition
          have hreset := callResetPartition_eq_nil F r1.1 (by rw [h1parts, hps])
          have h2cur : r2.1.currentPartition = none := by rw [hr2, hreset]
          have hnotsome : ¬ (r2.1.currentPartition.isSome = true) := by
            rw [h2cur]
            simp
          rw [if_neg hnotsome]
          have hbud : budget = pn.2 - s.partitionOffset := by
            rw [hps] at hrem
            simp at hrem
            omega
          have h2parts : r2.1.parts = [] := by rw [hr2, hreset]; dsimp only; rw [h1parts, hps]
          have h2proc : r2.1.numProcessedRows = r1.1.numProcessedRows := by rw [hr2, hreset]
          have h2rows : r2.1.numRows = r1.1.numRows := by rw [hr2, hreset]
          refine ⟨StepOk_trans F pf s r1.1 r2.1 r1.2 r2.2 hstep1 hstep2, ?_, ?_, ?_, ?_⟩
          · refine ⟨?_, ?_, ?_⟩
            · intro qn hq
              rw [h2cur] at hq
              exact Option.noConfusion hq
            · have hsum0 : s.parts.sum = 0 := by rw [hps]; rfl
              unfold remainingRows
              rw [h2cur]
              dsimp only
              rw [h2parts, h2proc, h2rows, h1proc, h1rows]
              simp only [List.sum_nil]
              omega
            · rw [h2parts]
              intro n hn
              exact absurd hn (List.not_mem_nil n)
          · rw [h2proc, h1proc]
            omega
          · rw [h2rows, h1rows]
          · intro hbpos qn hq
            injection hq with hq'
            subst hq'
            have hncur : ¬statusCurrent pn.1 r2.1 := by
              rintro ⟨n, hn⟩
              rw [h2cur] at hn
              exact Option.noConfusion hn
            exact ⟨⟨fun _ => hfit, fun _ => hncur⟩, fun hcur => absurd hcur hncur⟩
        · -- install the next partition and continue
          have hreset := callResetPartition_eq_cons F r1.1 m rest (by rw [h1parts, hps])
          have h2cur : r2.1.currentPartition = some (r1.1.nextIdx, m) := by rw [hr2, hreset]
          have hsome2 : r2.1.currentPartition.isSome = true := by rw [h2cur]; rfl
          rw [if_pos hsome2]
          have h2parts : r2.1.parts = rest := by rw [hr2, hreset]
          have h2next : r2.1.nextIdx = r1.1.nextIdx + 1 := by rw [hr2, hreset]
          have h2off : r2.1.partitionOffset = 0 := by rw [hr2, hreset]
          have h2proc : r2.1.numProcessedRows = r1.1.numProcessedRows := by rw [hr2, hreset]
          have h2rows : r2.1.numRows = r1.1.numRows := by rw [hr2, hreset]
          have hwf2 : WF r2.1 := by
            refine ⟨?_, ?_, ?_⟩
            · intro qn hq
              rw [h2cur] at hq
              injection hq with hq'
              subst hq'
              rw [h2next, h2off]
              exact ⟨rfl, Nat.zero_le m⟩
            · unfold remainingRows
              rw [h2cur]
              dsimp only
              rw [h2off, h2parts, h2proc, h2rows, h1proc, h1rows]
              rw [hps] at hrem
              simp only [List.sum_cons] at hrem
              omega
            · rw [h2parts]
              intro n hn
              exact hw3 n (by rw [hps]; exact List.mem_cons_of_mem m hn)
          have hlen : rest.length < N := by
            have : s.parts.length = rest.length + 1 := by rw [hps]; rfl
            omega
          have hbr2 : budget - (pn.2 - s.partitionOffset) ≤ remainingRows r2.1 := by
            have hrem2 : remainingRows r2.1 = m + rest.sum := by
              unfold remainingRows
              rw [h2cur]
              dsimp only
              rw [h2off, h2parts]
              omega
            rw [hps] at hrem
            simp [List.sum_cons] at hrem
            omega
          have hloop := ih rest.length hlen (budget - (pn.2 - s.partitionOffset)) r2.1
            (by rw [h2parts]) hwf2 hbr2 (Or.inr hsome2)
          obtain ⟨hstep3, hwf3, hproc3, hrows3, htrans3⟩ := hloop
          have hcomp := StepOk_trans F pf s r2.1 _ (r1.2 ++ r2.2) _
            (StepOk_trans F pf s r1.1 r2.1 r1.2 r2.2 hstep1 hstep2) hstep3
          refine ⟨hcomp, hwf3, ?_, ?_, ?_⟩
          · rw [hproc3, h2proc, h1proc]
            omega
          · rw [hrows3, h2rows, h1rows]
          · intro hbpos qn hq
            injection hq with hq'
            subst hq'
            have hdone2 : statusDone pn.1 r2.1 := by
              constructor
              · rw [h2next, h1next]
                omega
              · rintro ⟨n, hn⟩
                rw [h2cur] at hn
                injection hn with hn'
                have h5 : r1.1.nextIdx = pn.1 := congrArg Prod.fst hn'
                rw [h1next] at h5
                omega
            have hdone3 := (hstep3.1 pn.1 hdone2).1
            exact ⟨⟨fun _ => hfit, fun _ => hdone3.2⟩, fun hcur => absurd hcur hdone3.2⟩
      · -- the slice stops mid-partition
        rw [if_neg hfit]
        set r1 := callApplyForPartitionRows F pf s s.partitionOffset
          (s.partitionOffset + budget) with hr1
        have happly := callApplyForPartitionRows_eq F pf s pn
          (s.partitionOffset + budget) hc
        have h1parts : r1.1.parts = s.parts := by rw [hr1, happly]
        have h1cur : r1.1.currentPartition = some pn := by rw [hr1, happly]; exact hc
        have h1next : r1.1.nextIdx = s.nextIdx := by rw [hr1, happly]
        have h1off : r1.1.partitionOffset = s.partitionOffset + budget := by
          rw [hr1, happly]
          dsimp only
          omega
        have h1proc : r1.1.numProcessedRows = s.numProcessedRows + budget := by
          rw [hr1, happly]
          dsimp only
          omega
        have h1rows : r1.1.numRows = s.numRows := by rw [hr1, happly]
        refine ⟨?_, ?_, ?_, ?_, ?_⟩
        · rw [hr1]
          exact StepOk_callApplyForPartitionRows F pf s pn _ hc hpn (by omega)
        · refine ⟨?_, ?_, ?_⟩
          · intro qn hq
            rw [h1cur] at hq
            injection hq with hq'
            subst hq'
            rw [h1next, h1off]
            exact ⟨hpn, by omega⟩
          · unfold remainingRows
            rw [h1cur]
            dsimp only
            rw [h1off, h1parts, h1proc, h1rows]
            omega
          · rw [h1parts]
            exact hw3
        · exact h1proc
        · exact h1rows
        · intro hbpos qn hq
          injection hq with hq'
          subst hq'
          have hcur1 : statusCurrent pn.1 r1.1 := ⟨pn.2, by rw [h1cur]⟩
          refine ⟨⟨fun hn => absurd hcur1 hn, fun hf => absurd hf hfit⟩, fun _ => ?_⟩
          rw [h1off]
          exact ⟨rfl, by omega⟩

theorem getOutput_spec (F : ℕ) (pf : ℕ → ℕ → ℕ → ℕ × ℕ → ℕ × ℕ) (B : ℕ)
    (s : WindowOp) (hwf : WF s) :
    (s.numRows - s.numProcessedRows = 0 → getOutput F pf B s = (none, s, [])) ∧
    (0 < s.numRows - s.numProcessedRows →
      (getOutput F pf B s).1 = some (min B (s.numRows - s.numProcessedRows)) ∧
      StepOk F pf s (getOutput F pf B s).2.1 (getOutput F pf B s).2.2 ∧
      WF (getOutput F pf B s).2.1 ∧
      (getOutput F pf B s).2.1.numProcessedRows =
        s.numProcessedRows + min B (s.numRows - s.numProcessedRows) ∧
      (getOutput F pf B s).2.1.numRows = s.numRows) := by
  obtain ⟨hw1, hw2, hw3⟩ := hwf
  have hrem0 : remainingRows s = s.numRows - s.numProcessedRows := by omega
  constructor
  · intro h0
    unfold getOutput
    by_cases hz : s.numRows = 0
    · rw [if_pos hz]
    · rw [if_neg hz]
      dsimp only
      rw [if_pos h0]
  · intro hpos
    have hz : ¬(s.numRows = 0) := by omega
    have hl0 : ¬(s.numRows - s.numProcessedRows = 0) := by omega
    rcases hc : s.currentPartition with _ | pn
    · -- no current partition: the call pulls the next one before looping
      have hremc : remainingRows s = s.parts.sum := by
        unfold remainingRows
        rw [hc]
        dsimp only
        omega
      rcases hps : s.parts with _ | ⟨m, rest⟩
      · exfalso
        rw [hps] at hremc
        simp at hremc
        omega
      have hreset := callResetPartition_eq_cons F s m rest hps
      have hout : getOutput F pf B s =
          (some (min B (s.numRows - s.numProcessedRows)),
           (callApplyLoop F pf (min B (s.numRows - s.numProcessedRows))
             (callResetPartition F s).1).1,
           (callResetPartition F s).2 ++
             (callApplyLoop F pf (min B (s.numRows - s.numProcessedRows))
               (callResetPartition F s).1).2) := by
        unfold getOutput
        rw [if_neg hz]
        dsimp only
        rw [if_neg hl0, hc]
        dsimp only
        rw [hreset]
      have hstep0 : StepOk F pf s (callResetPartition F s).1 (callResetPartition F s).2 :=
        StepOk_callResetPartition F pf s fun qn hq => (hw1 qn hq).1
      have hwf0 : WF (callResetPartition F s).1 := by
        rw [hreset]
        refine ⟨?_, ?_, ?_⟩
        · intro qn hq
          dsimp only at hq ⊢
          injection hq with hq'
          subst hq'
          exact ⟨rfl, Nat.zero_le m⟩
        · unfold remainingRows
          dsimp only
          rw [hps] at hremc
          simp only [List.sum_cons] at hremc
          omega
        · dsimp only
          intro n hn
          exact hw3 n (by rw [hps]; exact List.mem_cons_of_mem m hn)
      have hrem1 : remainingRows (callResetPartition F s).1 = m + rest.sum := by
        rw [hreset]
        unfold remainingRows
        dsimp only
        omega
      have hbud : min B (s.numRows - s.numProcessedRows) ≤
          remainingRows (callResetPartition F s).1 := by
        rw [hrem1]
        rw [hps] at hremc
        simp only [List.sum_cons] at hremc
        omega
      have hsome0 : (callResetPartition F s).1.currentPartition.isSome = true := by
        rw [hreset]
        rfl
      have hloop := callApplyLoop_spec F pf (callResetPartition F s).1.parts.length
        (min B (s.numRows - s.numProcessedRows)) (callResetPartition F s).1
        (le_refl _) hwf0 hbud (Or.inr hsome0)
      obtain ⟨hstepL, hwfL, hprocL, hrowsL, _⟩ := hloop
      have hproc0 : (callResetPartition F s).1.numProcessedRows = s.numProcessedRows := by
        rw [hreset]
      have hrows0 : (callResetPartition F s).1.numRows = s.numRows := by
        rw [hreset]
      rw [hout]
      dsimp only
      refine ⟨rfl, ?_, hwfL, ?_, ?_⟩
      · exact StepOk_trans F pf s _ _ _ _ hstep0 hstepL
      · rw [hprocL, hproc0]
      · rw [hrowsL, hrows0]
    · -- a partition is already current
      have hout : getOutput F pf B s =
          (some (min B (s.numRows - s.numProcessedRows)),
           (callApplyLoop F pf (min B (s.numRows - s.numProcessedRows)) s).1,
           [] ++ (callApplyLoop F pf (min B (s.numRows - s.numProcessedRows)) s).2) := by
        unfold getOutput
        rw [if_neg hz]
        dsimp only
        rw [if_neg hl0, hc]
        dsimp only
        rw [hc]
      have hbud : min B (s.numRows - s.numProcessedRows) ≤ remainingRows s := by omega
      have hloop := callApplyLoop_spec F pf s.parts.length
        (min B (s.numRows - s.numProcessedRows)) s (le_refl _) ⟨hw1, hw2, hw3⟩ hbud
        (Or.inr (by rw [hc]; rfl))
      obtain ⟨hstepL, hwfL, hprocL, hrowsL, _⟩ := hloop
      rw [hout]
      dsimp only
      refine ⟨rfl, ?_, hwfL, hprocL, hrowsL⟩
      rw [List.nil_append]
      exact hstepL

theorem runCalls_spec (F : ℕ) (pf : ℕ → ℕ → ℕ → ℕ × ℕ → ℕ × ℕ) (B : ℕ)
    (hB : 1 ≤ B) :
    ∀ (k : ℕ) (s : WindowOp), WF s →
      StepOk F pf s (runCalls F pf B k s).2.1 (runCalls F pf B k s).2.2 ∧
      WF (runCalls F pf B k s).2.1 ∧
      (runCalls F pf B k s).2.1.numRows = s.numRows ∧
      s.numRows - (runCalls F pf B k s).2.1.numProcessedRows ≤
        (s.numRows - s.numProcessedRows) - k := by
  intro k
  induction k with
  | zero =>
      intro s hwf
      unfold runCalls
      exact ⟨StepOk_refl F pf s, hwf, rfl, by dsimp only; omega⟩
  | succ k ih =>
      intro s hwf
      unfold runCalls
      dsimp only
      obtain ⟨h0, hposspec⟩ := getOutput_spec F pf B s hwf
      by_cases hl : s.numRows - s.numProcessedRows = 0
      · rw [h0 hl]
        dsimp only
        obtain ⟨ha, hb, hc', hd⟩ := ih s hwf
        refine ⟨?_, hb, hc', by omega⟩
        rw [List.nil_append]
        exact ha
      · have hpos : 0 < s.numRows - s.numProcessedRows := by omega
        obtain ⟨hone, hstep1, hwf1, hproc1, hrows1⟩ := hposspec hpos
        obtain ⟨ha, hb, hc', hd⟩ := ih (getOutput F pf B s).2.1 hwf1
        have h1min : 1 ≤ min B (s.numRows - s.numProcessedRows) := le_min hB hpos
        have h2min : min B (s.numRows - s.numProcessedRows) ≤
            s.numRows - s.numProcessedRows := min_le_right _ _
        refine ⟨StepOk_trans F pf s _ _ _ _ hstep1 ha, hb, by rw [hc', hrows1], ?_⟩
        rw [hrows1] at hd
        omega

theorem WF_initOp (ps : List ℕ) (hpos : ∀ n ∈ ps, 0 < n) : WF (initOp ps) := by
  refine ⟨fun pn hq => Option.noConfusion hq, ?_, hpos⟩
  unfold remainingRows initOp
  dsimp only
  omega

/-- Draining the operator with `ps.sum` output calls processes every row and
installs every partition. -/
theorem drain_spec (F : ℕ) (pf : ℕ → ℕ → ℕ → ℕ × ℕ → ℕ × ℕ) (B : ℕ)
    (ps : List ℕ) (hB : 1 ≤ B) (hpos : ∀ n ∈ ps, 0 < n) :
    StepOk F pf (initOp ps) (runCalls F pf B ps.sum (initOp ps)).2.1
      (runCalls F pf B ps.sum (initOp ps)).2.2 ∧
    (runCalls F pf B ps.sum (initOp ps)).2.1.nextIdx = ps.length := by
  obtain ⟨ha, hb, hc', hd⟩ := runCalls_spec F pf B hB ps.sum (initOp ps) (WF_initOp ps hpos)
  refine ⟨ha, ?_⟩
  have hnum : (initOp ps).numRows = ps.sum := rfl
  have hproc0 : (initOp ps).numProcessedRows = 0 := rfl
  rw [hnum] at hc' hd
  rw [hproc0] at hd
  obtain ⟨hw1, hw2, hw3⟩ := hb
  have hrem : remainingRows (runCalls F pf B ps.sum (initOp ps)).2.1 = 0 := by
    rw [hc'] at hw2
    omega
  have hsum0 : (runCalls F pf B ps.sum (initOp ps)).2.1.parts.sum = 0 := by
    unfold remainingRows at hrem
    omega
  have hparts : (runCalls F pf B ps.sum (initOp ps)).2.1.parts = [] := by
    rcases hp : (runCalls F pf B ps.sum (initOp ps)).2.1.parts with _ | ⟨x, xs⟩
    · rfl
    · exfalso
      have hx := hw3 x (by rw [hp]; exact List.mem_cons_self _ _)
      rw [hp] at hsum0
      simp only [List.sum_cons] at hsum0
      omega
  have hcons := ha.2.2.2.2
  rw [hparts] at hcons
  have hinit : (initOp ps).nextIdx + (initOp ps).parts.length = ps.length := by
    unfold initOp
    dsimp only
    omega
  rw [hinit] at hcons
  simpa using hcons

/-- What the full drain's trace contains for each partition: the resets block
first, then only applies and peer computations, the latter chained from the
zeroed continuation. -/
theorem drain_partition_events (F : ℕ) (pf : ℕ → ℕ → ℕ → ℕ × ℕ → ℕ × ℕ) (B : ℕ)
    (ps : List ℕ) (hB : 1 ≤ B) (hpos : ∀ n ∈ ps, 0 < n) (p : ℕ) (hp : p < ps.length) :
    (∃ rest, partTrace p (runCalls F pf B ps.sum (initOp ps)).2.2 =
        resetsBlock F p ++ rest ∧ rest.all WinEvent.isApplyOrPeer = true) ∧
    ∃ fin, chainFrom pf p (0, 0) 0
      (peerEvents p (runCalls F pf B ps.sum (initOp ps)).2.2) fin := by
  obtain ⟨hstep, hnext⟩ := drain_spec F pf B ps hB hpos
  have hpend : statusPending p (initOp ps) := Nat.zero_le p
  have hnp : ¬statusPending p (runCalls F pf B ps.sum (initOp ps)).2.1 := by
    unfold statusPending
    rw [hnext]
    omega
  obtain ⟨hres, fin, hchain, _⟩ := (hstep.2.2.1 p hpend).2 hnp
  exact ⟨hres, fin, hchain⟩

theorem count_resetsBlock (F p f : ℕ) (hf : f < F) :
    (resetsBlock F p).count (WinEvent.reset f p) = 1 := by
  unfold resetsBlock
  have h1 : ((List.range F).map fun x => WinEvent.reset x p).count (WinEvent.reset f p) =
      (List.range F).count f :=
    List.count_map_of_injective (List.range F) (fun x => WinEvent.reset x p)
      (fun a b h => by injection h) f
  rw [h1]
  exact List.count_eq_one_of_mem (List.nodup_range F) (List.mem_range.mpr hf)

theorem count_reset_applies (rest : List WinEvent)
    (h : rest.all WinEvent.isApplyOrPeer = true) (f p : ℕ) :
    rest.count (WinEvent.reset f p) = 0 := by
  rw [List.count_eq_zero]
  intro hmem
  have hbad := (List.all_eq_true.mp h) _ hmem
  simp [WinEvent.isApplyOrPeer] at hbad

theorem count_reset_partTrace (t : List WinEvent) (f p : ℕ) :
    t.count (WinEvent.reset f p) = (partTrace p t).count (WinEvent.reset f p) := by
  unfold partTrace
  rw [List.count_filter]
  simp [WinEvent.part]

/-! ### C2, C7, C8: the batching driver claims -/

/-- A tiny concrete driver state: one 2-row partition currently installed,
nothing pending. -/
def sampleOpState : WindowOp := ⟨[], 1, some (0, 2), 0, 0, 0, 0, 2⟩

theorem sampleOpState_wf : WF sampleOpState := by
  refine ⟨?_, ?_, ?_⟩
  · intro pn hq
    injection hq with h
    subst h
    exact ⟨rfl, by decide⟩
  · rfl
  · intro n hn
    simp [sampleOpState] at hn

/-- C2: after input is finalized, each `getOutput` call produces exactly
`min(budget, rows not yet processed)` rows and a call with nothing left
produces no output; inside one call the loop leaves the current partition
exactly when its remaining rows fit the remaining budget, and otherwise
consumes exactly the budget without crossing the partition boundary, leaving
the cursor mid-partition; a single 10-row partition with budget 4 yields
4, 4, 2, then no output across four successive calls. -/
theorem getOutput_budget_slicing (F : ℕ) (pf : ℕ → ℕ → ℕ → ℕ × ℕ → ℕ × ℕ)
    (B : ℕ) (s : WindowOp) (hwf : WF s) :
    (s.numRows - s.numProcessedRows = 0 → getOutput F pf B s = (none, s, [])) ∧
    (0 < s.numRows - s.numProcessedRows →
      (getOutput F pf B s).1 = some (min B (s.numRows - s.numProcessedRows)) ∧
      (getOutput F pf B s).2.1.numProcessedRows =
        s.numProcessedRows + min B (s.numRows - s.numProcessedRows)) ∧
    (∀ pn budget, s.currentPartition = some pn → 0 < budget →
      budget ≤ remainingRows s →
      (pn.2 - s.partitionOffset ≤ budget →
        ¬statusCurrent pn.1 (callApplyLoop F pf budget s).1) ∧
      (budget < pn.2 - s.partitionOffset →
        statusCurrent pn.1 (callApplyLoop F pf budget s).1 ∧
        (callApplyLoop F pf budget s).1.partitionOffset = s.partitionOffset + budget ∧
        (callApplyLoop F pf budget s).1.partitionOffset < pn.2 ∧
        (callApplyLoop F pf budget s).1.numProcessedRows =
          s.numProcessedRows + budget)) ∧
    (runCalls 1 trivialPeerFn 4 4 (initOp [10])).1 = [some 4, some 4, some 2, none] := by
  obtain ⟨h0, hpos⟩ := getOutput_spec F pf B s hwf
  refine ⟨h0, fun hl => ⟨(hpos hl).1, (hpos hl).2.2.2.1⟩, ?_, ?_⟩
  · intro pn budget hc hb0 hbr
    have hloop := callApplyLoop_spec F pf s.parts.length budget s (le_refl _) hwf hbr
      (Or.inr (by rw [hc]; rfl))
    obtain ⟨_, _, hproc, _, htrans⟩ := hloop
    obtain ⟨hiff, hoff⟩ := htrans hb0 pn hc
    constructor
    · intro hfit
      exact hiff.mpr hfit
    · intro hlt
      have hcur : statusCurrent pn.1 (callApplyLoop F pf budget s).1 := by
        by_contra hn
        exact absurd (hiff.mp hn) (by omega)
      obtain ⟨ho1, ho2⟩ := hoff hcur
      exact ⟨hcur, ho1, ho2, hproc⟩
  · simp [runCalls, getOutput, callApplyLoop, callResetPartition,
      callApplyForPartitionRows, initOp, trivialPeerFn]

/-- Witness for C2: the mandated 10-row / budget-4 scenario produces
4, 4, 2, then no output. -/
theorem getOutput_budget_slicing_witness :
    (runCalls 1 trivialPeerFn 4 4 (initOp [10])).1 = [some 4, some 4, some 2, none] :=
  (getOutput_budget_slicing 1 trivialPeerFn 4 (initOp [10])
    (WF_initOp [10] (by decide))).2.2.2

/-- C7: the loop leaves the current partition exactly when the cursor reaches
its row count (otherwise the cursor stays strictly inside it), and over a
full run every window function instance receives exactly one resetPartition
notification per partition, placed before any apply event of that
partition. -/
theorem resetPartition_once_before_apply (F : ℕ) (pf : ℕ → ℕ → ℕ → ℕ × ℕ → ℕ × ℕ)
    (B : ℕ) (ps : List ℕ) (hB : 1 ≤ B) (hpos : ∀ n ∈ ps, 0 < n)
    (s : WindowOp) (hwf : WF s) (pn : ℕ × ℕ) (hc : s.currentPartition = some pn)
    (budget : ℕ) (hbr : budget ≤ remainingRows s) (hb0 : 0 < budget) :
    ((¬statusCurrent pn.1 (callApplyLoop F pf budget s).1 ↔
        pn.2 - s.partitionOffset ≤ budget) ∧
      (statusCurrent pn.1 (callApplyLoop F pf budget s).1 →
        (callApplyLoop F pf budget s).1.partitionOffset < pn.2)) ∧
    ∀ p < ps.length,
      (∃ rest, partTrace p (runCalls F pf B ps.sum (initOp ps)).2.2 =
          resetsBlock F p ++ rest ∧ rest.all WinEvent.isApplyOrPeer = true) ∧
      ∀ f < F, ((runCalls F pf B ps.sum (initOp ps)).2.2).count (WinEvent.reset f p) = 1 := by
  constructor
  · have hloop := callApplyLoop_spec F pf s.parts.length budget s (le_refl _) hwf hbr
      (Or.inr (by rw [hc]; rfl))
    obtain ⟨_, _, _, _, htrans⟩ := hloop
    obtain ⟨hiff, hoff⟩ := htrans hb0 pn hc
    exact ⟨hiff, fun hcur => (hoff hcur).2⟩
  · intro p hp
    obtain ⟨⟨rest, hform, happlies⟩, _⟩ := drain_partition_events F pf B ps hB hpos p hp
    refine ⟨⟨rest, hform, happlies⟩, ?_⟩
    intro f hf
    rw [count_reset_partTrace, hform, List.count_append,
      count_resetsBlock F p f hf, count_reset_applies rest happlies f p]

/-- Witness for C7 at a concrete single-partition run. -/
theorem resetPartition_once_before_apply_witness :
    ((runCalls 1 trivialPeerFn 1 (List.sum [2]) (initOp [2])).2.2).count
        (WinEvent.reset 0 0) = 1 :=
  ((resetPartition_once_before_apply 1 trivialPeerFn 1 [2] (by decide)
      (by decide) sampleOpState sampleOpState_wf (0, 2) rfl 1 (by decide)
      (by decide)).2 0 (by decide)).2 0 (by decide)

/-- C8: within one partition, every slice's peer computation is seeded with
the continuation returned by the previous slice (zeroed on partition change,
so the first slice is seeded with 0, 0), the continuation is updated from the
returned values, and a slice of `k` rows advances the cursor by exactly `k`;
over a full run the recorded peer computations of each partition form a
continuation chain starting at cursor 0 with seed (0, 0). -/
theorem peer_buffer_continuation_chain (F : ℕ) (pf : ℕ → ℕ → ℕ → ℕ × ℕ → ℕ × ℕ)
    (B : ℕ) (ps : List ℕ) (hB : 1 ≤ B) (hpos : ∀ n ∈ ps, 0 < n)
    (s : WindowOp) (pn : ℕ × ℕ) (hc : s.currentPartition = some pn) (a b : ℕ) :
    ((callApplyForPartitionRows F pf s a b).1.peerStartRow =
        (pf pn.1 a b (s.peerStartRow, s.peerEndRow)).1 ∧
      (callApplyForPartitionRows F pf s a b).1.peerEndRow =
        (pf pn.1 a b (s.peerStartRow, s.peerEndRow)).2 ∧
      (callApplyForPartitionRows F pf s a b).1.partitionOffset =
        s.partitionOffset + (b - a) ∧
      (callApplyForPartitionRows F pf s a b).2 =
        sliceEvents F pn.1 a b s.peerStartRow s.peerEndRow) ∧
    ((callResetPartition F s).1.peerStartRow = 0 ∧
      (callResetPartition F s).1.peerEndRow = 0 ∧
      (callResetPartition F s).1.partitionOffset = 0) ∧
    ∀ p < ps.length, ∃ fin, chainFrom pf p (0, 0) 0
      (peerEvents p (runCalls F pf B ps.sum (initOp ps)).2.2) fin := by
  refine ⟨?_, ?_, ?_⟩
  · unfold callApplyForPartitionRows sliceEvents
    rw [hc]
    exact ⟨rfl, rfl, rfl, rfl⟩
  · unfold callResetPartition
    rcases s.parts with _ | ⟨n, rest⟩
    · exact ⟨rfl, rfl, rfl⟩
    · exact ⟨rfl, rfl, rfl⟩
  · intro p hp
    exact (drain_partition_events F pf B ps hB hpos p hp).2

/-- Witness for C8 at a concrete single-partition run. -/
theorem peer_buffer_continuation_chain_witness :
    ∃ fin, chainFrom trivialPeerFn 0 (0, 0) 0
      (peerEvents 0 (runCalls 1 trivialPeerFn 1 (List.sum [2]) (initOp [2])).2.2) fin :=
  (peer_buffer_continuation_chain 1 trivialPeerFn 1 [2] (by decide) (by decide)
    sampleOpState (0, 2) rfl 0 2).2.2 0 (by decide)

end VeloxWindow
